import Mathlib

/-!
# Verification development for the OpenSSL backend layer of rnp

Shallow embedding of
* `src/lib/crypto/bn.h` (class `rnp::bn`),
* `src/lib/crypto/ecdsa_ossl.cpp` (`ecdsa_decode_sig`, `ecdsa_encode_sig`,
  `ecdsa_sign`, `ecdsa_verify`),
* `src/lib/crypto/rsa_ossl.cpp` (the six RSA entry points),
* `src/lib/crypto/backend_version.cpp` (`backend_version` for the OpenSSL backend).

The native library is not part of the repository.  Its arithmetic and DER
primitives are given their documented semantics over natural numbers and byte
lists; its key, context, sign and verify primitives and its allocator are
oracles collected in `Provider`, so that every statement ranges over all
provider behaviours.  Diagnostic output (`RNP_LOG`) has no effect on results or
state and is left out.  The array size `PGP_MPINT_SIZE` is declared in mpi.h, which
is not among the sources; it is a parameter wherever the code names it, and the
size of an array itself is the length of the list that stands for it.
-/

set_option linter.dupNamespace false
set_option linter.unusedVariables false
set_option autoImplicit false

namespace Rnp

/-! ## Bytes and native integers -/

/-- One octet (`uint8_t`). -/
abbrev Byte := Fin 256

/-- Truncation of a number to `uint8_t`. -/
def Byte.ofNat (n : Nat) : Byte := ⟨n % 256, Nat.mod_lt n (by decide)⟩

/-- The value of a native big number (`BIGNUM`); only non-negative values occur,
since every `BIGNUM` of this development is produced by `BN_bin2bn`. -/
abbrev BIGNUM := Nat

/-- Big-endian value of a byte string: what `BN_bin2bn(s, len, ret)` stores. -/
def be_value (s : List Byte) : Nat :=
  s.foldl (fun acc b => acc * 256 + b.val) 0

/-- Little-endian value of a byte string (auxiliary). -/
def le_value : List Byte → Nat
  | [] => 0
  | b :: bs => b.val + 256 * le_value bs

/-- Little-endian minimal byte string of `n`; `fuel` bounds the recursion and
`fuel = n` always suffices. -/
def bytes_le : Nat → Nat → List Byte
  | 0, _ => []
  | fuel + 1, n => if n = 0 then [] else Byte.ofNat n :: bytes_le fuel (n / 256)

/-- The bytes `BN_bn2bin` writes: big-endian, minimal length, empty for 0. -/
def BN_bytes (n : BIGNUM) : List Byte := (bytes_le n n).reverse

/-- The library's `BN_num_bytes`. -/
def BN_num_bytes (n : BIGNUM) : Nat := (BN_bytes n).length

/-- The library's `BN_bin2bn(s, len, ret)`: reads the first `len` bytes of `s`. -/
def BN_bin2bn (s : List Byte) (len : Nat) : BIGNUM := be_value (s.take len)

/-- A byte string with its leading zero bytes removed. -/
def strip_zeros (s : List Byte) : List Byte := s.dropWhile (fun b => b == 0)

/-! ## Faults

Behaviour the C++ abstract machine leaves undefined, or that ends the process,
is an explicit outcome of the embedding. -/

/-- Ways an embedded function can fail to return. -/
inductive Fault
  | assert_failed
  | buffer_overrun
  | null_deref
  deriving DecidableEq, Repr

instance {ε α : Type} [DecidableEq ε] [DecidableEq α] : DecidableEq (Except ε α) :=
  fun a b =>
    match a, b with
    | .ok x, .ok y => if h : x = y then isTrue (by rw [h]) else isFalse (fun e => h (Except.ok.inj e))
    | .error x, .error y =>
      if h : x = y then isTrue (by rw [h]) else isFalse (fun e => h (Except.error.inj e))
    | .ok _, .error _ => isFalse (fun e => Except.noConfusion e)
    | .error _, .ok _ => isFalse (fun e => Except.noConfusion e)

/-- Writing `src` at the start of the array `dst`; writing more than the array
holds is a buffer overrun. -/
def mem_write (dst src : List Byte) : Except Fault (List Byte) :=
  if src.length ≤ dst.length then .ok (src ++ dst.drop src.length)
  else .error Fault.buffer_overrun

/-! ## Wire integers -/

/-- The wire integer `pgp::mpi`: `uint8_t mpi[PGP_MPINT_SIZE]; size_t len;`.
The list `mpi` is the whole array, so `sizeof(m.mpi)` is `m.mpi.length`. -/
structure mpi where
  mpi : List Byte
  len : Nat
  deriving DecidableEq, Repr

/-- Modelled from the spec: `pgp::mpi::bytes()` (mpi.h is not part of the
sources), the explicit length of the wire integer. -/
def mpi.bytes (m : Rnp.mpi) : Nat := m.len

/-- The `len` bytes of the wire integer that carry its value. -/
def mpi.data (m : Rnp.mpi) : List Byte := m.mpi.take m.len

/-- The data-model invariant of a wire integer for the array size `cap`
(`PGP_MPINT_SIZE`): the array has that size and the length does not exceed it. -/
def mpi.wf (cap : Nat) (m : Rnp.mpi) : Prop := m.mpi.length = cap ∧ m.len ≤ cap

instance (cap : Nat) (m : mpi) : Decidable (mpi.wf cap m) := by
  unfold mpi.wf; infer_instance

/-! ## DER signatures

The exchange format `SEQUENCE { INTEGER r, INTEGER s }` of the library
(`i2d_ECDSA_SIG` / `d2i_ECDSA_SIG`).  Lengths use the short form below 0x80 and
the long forms 0x81 and 0x82; larger contents are not encodable. -/

/-- The DER length octets of a content of `n` bytes. -/
def der_length (n : Nat) : Option (List Byte) :=
  if 0xffff < n then none
  else if 0xff < n then some [0x82, Byte.ofNat (n / 256), Byte.ofNat n]
  else if 0x7f < n then some [0x81, Byte.ofNat n]
  else some [Byte.ofNat n]

/-- The content octets of a non-negative DER INTEGER: the minimal big-endian
bytes, with one zero byte in front when the top bit is set or the value is 0. -/
def der_integer_content (n : BIGNUM) : List Byte :=
  match BN_bytes n with
  | [] => [0]
  | b :: bs => if 0x80 ≤ b.val then 0 :: b :: bs else b :: bs

/-- Tag, length and content of a DER INTEGER. -/
def der_integer (n : BIGNUM) : Option (List Byte) :=
  match der_length (der_integer_content n).length with
  | none => none
  | some l => some (0x02 :: (l ++ der_integer_content n))

/-- The bytes `i2d_ECDSA_SIG` produces for the pair `(r, s)`, `none` when the
pair is not encodable. -/
def der_encode_sig (r s : BIGNUM) : Option (List Byte) :=
  match der_integer r, der_integer s with
  | some ri, some si =>
    match der_length (ri.length + si.length) with
    | none => none
    | some l => some (0x30 :: (l ++ (ri ++ si)))
  | _, _ => none

/-- Splits `n` bytes off the front of a packet, when it has that many. -/
def get_sub_packet (pkt : List Byte) (n : Nat) : Option (List Byte × List Byte) :=
  if n ≤ pkt.length then some (pkt.take n, pkt.drop n) else none

/-- Reads DER length octets and splits off the content they announce. -/
def der_decode_length : List Byte → Option (List Byte × List Byte)
  | [] => none
  | b :: rest =>
    if b.val < 0x80 then get_sub_packet rest b.val
    else if b.val = 0x81 then
      match rest with
      | l :: rest1 => get_sub_packet rest1 l.val
      | [] => none
    else if b.val = 0x82 then
      match rest with
      | l1 :: l2 :: rest2 => get_sub_packet rest2 (l1.val * 256 + l2.val)
      | _ => none
    else none

/-- Whether the content octets are those of a non-negative, minimally encoded
DER INTEGER. -/
def der_integer_content_ok : List Byte → Bool
  | [] => false
  | b :: rest =>
    if 0x80 ≤ b.val then false
    else match rest with
      | [] => true
      | c :: _ => if b.val = 0 then decide (0x80 ≤ c.val) else true

/-- Reads one DER INTEGER off the front of a packet. -/
def der_decode_integer : List Byte → Option (BIGNUM × List Byte)
  | [] => none
  | tag :: rest =>
    if tag.val ≠ 0x02 then none
    else match der_decode_length rest with
      | none => none
      | some (cont, rest1) =>
        if der_integer_content_ok cont then some (be_value cont, rest1) else none

/-- The pair `d2i_ECDSA_SIG` parses from a packet: a SEQUENCE holding exactly two
INTEGERs; bytes after the SEQUENCE are left unread. -/
def der_decode_sig : List Byte → Option (BIGNUM × BIGNUM)
  | [] => none
  | tag :: rest =>
    if tag.val ≠ 0x30 then none
    else match der_decode_length rest with
      | none => none
      | some (cont, _) =>
        match der_decode_integer cont with
        | none => none
        | some (r, cont1) =>
          match der_decode_integer cont1 with
          | none => none
          | some (s, cont2) => if cont2 = [] then some (r, s) else none


/-! ## Result codes, keys, signatures and the provider -/

/-- The result codes the embedded functions return. -/
inductive rnp_result_t
  | RNP_SUCCESS
  | RNP_ERROR_GENERIC
  | RNP_ERROR_BAD_PARAMETERS
  | RNP_ERROR_NOT_IMPLEMENTED
  | RNP_ERROR_SIGNATURE_INVALID
  deriving DecidableEq, Repr

open rnp_result_t

/-- A native key object (`EVP_PKEY *`), non-null. -/
abbrev EVP_PKEY := Nat

/-- A native operation context (`EVP_PKEY_CTX *`), non-null. -/
abbrev EVP_PKEY_CTX := Nat

/-- The key `pgp::ec::Key`: curve identifier, public point `p`, private scalar `x`. -/
structure ec.Key where
  curve : Nat
  p : mpi
  x : mpi
  deriving DecidableEq, Repr

/-- The signature `pgp::ec::Signature`: the pair `(r, s)`. -/
structure ec.Signature where
  r : mpi
  s : mpi
  deriving DecidableEq, Repr

/-- The randomness capability `rnp::RNG`; `draws` counts its invocations. -/
structure RNG where
  draws : Nat
  deriving DecidableEq, Repr

/-- The behaviour of the native provider, as far as the embedded code observes it.
`alloc n` tells whether the allocation at site `n` is served: 0 `ECDSA_SIG_new`,
1 and 2 the two `mpi2bn` calls of `ecdsa_encode_sig`, 3 the allocation inside
`d2i_ECDSA_SIG`.  `load_key` is `pgp::ec::load_key` (ec_ossl.cpp, not part of the
sources) with the private scalar present or `NULL`.  `EVP_PKEY_sign` yields the
return code and the blob the primitive has for a digest. -/
structure Provider where
  alloc : Nat → Bool
  load_key : mpi → Option mpi → Nat → Option EVP_PKEY
  EVP_PKEY_CTX_new : EVP_PKEY → Option EVP_PKEY_CTX
  EVP_PKEY_sign_init : EVP_PKEY_CTX → Int
  EVP_PKEY_sign : EVP_PKEY_CTX → List Byte → Int × List Byte
  EVP_PKEY_verify_init : EVP_PKEY_CTX → Int
  EVP_PKEY_verify : EVP_PKEY_CTX → List Byte → List Byte → Int

/-- The provider and key-loading calls a run makes, in order. -/
inductive Call
  | load_key (p : mpi) (x : Option mpi) (curve : Nat)
  | EVP_PKEY_CTX_new (k : EVP_PKEY)
  | EVP_PKEY_sign_init (c : EVP_PKEY_CTX)
  | EVP_PKEY_sign (c : EVP_PKEY_CTX) (tbs : List Byte) (siglen : Nat)
  | EVP_PKEY_verify_init (c : EVP_PKEY_CTX)
  | EVP_PKEY_verify (c : EVP_PKEY_CTX) (sig : List Byte) (tbs : List Byte)
  | EVP_PKEY_CTX_free (c : Option EVP_PKEY_CTX)
  | EVP_PKEY_free (k : EVP_PKEY)
  deriving DecidableEq, Repr

/-- Overwriting the start of an array that is large enough for `src`. -/
def overwrite (dst src : List Byte) : List Byte := src ++ dst.drop src.length

/-- Modelled from the spec: `mpi2bn` (bn.h:60 declares it, its body is not part of
the sources): "copies bytes into a newly allocated native integer"; `NULL` when
the allocation is not served. -/
def mpi2bn (served : Bool) (val : mpi) : Option BIGNUM :=
  if served then some (BN_bin2bn val.mpi val.len) else none

/-- Modelled from the spec: `bn2mpi` (bn.h:64 declares it, its body is not part of
the sources): "computes the native byte length; fails (does not write a partial
value) if the byte length exceeds the maximum wire size; otherwise writes the
big-endian bytes and records the length". -/
def bn2mpi (bn : BIGNUM) (val : mpi) : Bool × mpi :=
  if val.mpi.length < BN_num_bytes bn then (false, val)
  else (true, { mpi := overwrite val.mpi (BN_bytes bn), len := BN_num_bytes bn })

/-- The library's `d2i_ECDSA_SIG(NULL, &data, len)`: parses the first `len` bytes. -/
def d2i_ECDSA_SIG (P : Provider) (data : List Byte) (len : Nat) : Option (BIGNUM × BIGNUM) :=
  if P.alloc 3 then der_decode_sig (data.take len) else none

/-- The library's `i2d_ECDSA_SIG(dsig, &data)`: writes the encoding at `data`
without knowing the size of the array, and returns its length, or -1. -/
def i2d_ECDSA_SIG (r s : BIGNUM) (data : List Byte) : Except Fault (Int × List Byte) :=
  match der_encode_sig r s with
  | none => .ok (-1, data)
  | some enc =>
    match mem_write data enc with
    | .error f => .error f
    | .ok data1 => .ok ((enc.length : Int), data1)

/-- The library's `EVP_PKEY_sign(ctx, sig, &siglen, tbs, tbslen)`: on success the
blob is written to `sig` and its length to `siglen`; a blob longer than the
announced `siglen` is refused. -/
def EVP_PKEY_sign (P : Provider) (ctx : EVP_PKEY_CTX) (sig : List Byte) (siglen : Nat)
    (tbs : List Byte) : Int × List Byte × Nat :=
  if (P.EVP_PKEY_sign ctx tbs).1 ≤ 0 then ((P.EVP_PKEY_sign ctx tbs).1, sig, siglen)
  else if siglen < (P.EVP_PKEY_sign ctx tbs).2.length then (0, sig, siglen)
  else ((P.EVP_PKEY_sign ctx tbs).1, overwrite sig (P.EVP_PKEY_sign ctx tbs).2,
        (P.EVP_PKEY_sign ctx tbs).2.length)

/-! ## ecdsa_ossl.cpp -/

/-- ecdsa_ossl.cpp:36 `ecdsa_decode_sig`. -/
def ecdsa_decode_sig (P : Provider) (data : List Byte) (len : Nat) (sig : ec.Signature) :
    Bool × ec.Signature :=
  match d2i_ECDSA_SIG P data len with
  | none => (false, sig)
  | some (r, s) =>
    let sig1 : ec.Signature := { sig with r := (bn2mpi r sig.r).2 }
    let sig2 : ec.Signature := { sig1 with s := (bn2mpi s sig1.s).2 }
    (true, sig2)

/-- ecdsa_ossl.cpp:52 `ecdsa_encode_sig`: result flag, the array `data` and `*len`. -/
def ecdsa_encode_sig (P : Provider) (data : List Byte) (len : Nat) (sig : ec.Signature) :
    Except Fault (Bool × List Byte × Nat) :=
  let dsig := P.alloc 0
  match mpi2bn (P.alloc 1) sig.r, mpi2bn (P.alloc 2) sig.s with
  | some r, some s =>
    if !dsig then .ok (false, data, len)
    else
      match i2d_ECDSA_SIG r s data with
      | .error f => .error f
      | .ok (outlen, data1) =>
        if outlen < 0 then .ok (false, data1, len)
        else .ok (true, data1, outlen.toNat)
  | _, _ => .ok (false, data, len)

/-- What `ecdsa_sign` leaves behind: the result, the output signature, the
randomness capability and the calls made. -/
structure SignOut where
  ret : rnp_result_t
  sig : ec.Signature
  rng : RNG
  calls : List Call
  deriving DecidableEq, Repr

/-- ecdsa_ossl.cpp:87 `ecdsa_sign`; `hash` carries its own length `hash_len`. -/
def ecdsa_sign (P : Provider) (PGP_MPINT_SIZE : Nat) (rng : RNG) (sig : ec.Signature)
    (hash_alg : Nat) (hash : List Byte) (key : ec.Key) : SignOut :=
  if key.x.bytes = 0 then ⟨RNP_ERROR_BAD_PARAMETERS, sig, rng, []⟩
  else
    match P.load_key key.p (some key.x) key.curve with
    | none => ⟨RNP_ERROR_BAD_PARAMETERS, sig, rng, [Call.load_key key.p (some key.x) key.curve]⟩
    | some evpkey =>
      let c0 := [Call.load_key key.p (some key.x) key.curve, Call.EVP_PKEY_CTX_new evpkey]
      match P.EVP_PKEY_CTX_new evpkey with
      | none =>
        ⟨RNP_ERROR_GENERIC, sig, rng,
          c0 ++ [Call.EVP_PKEY_CTX_free none, Call.EVP_PKEY_free evpkey]⟩
      | some ctx =>
        let done := [Call.EVP_PKEY_CTX_free (some ctx), Call.EVP_PKEY_free evpkey]
        let c1 := c0 ++ [Call.EVP_PKEY_sign_init ctx]
        if P.EVP_PKEY_sign_init ctx ≤ 0 then ⟨RNP_ERROR_GENERIC, sig, rng, c1 ++ done⟩
        else
          let sig1 : ec.Signature := { sig with s := { sig.s with len := PGP_MPINT_SIZE } }
          let c2 := c1 ++ [Call.EVP_PKEY_sign ctx hash sig1.s.len]
          match EVP_PKEY_sign P ctx sig1.s.mpi sig1.s.len hash with
          | (rc, buf, siglen) =>
            let sig2 : ec.Signature := { sig1 with s := { mpi := buf, len := siglen } }
            if rc ≤ 0 then
              ⟨RNP_ERROR_GENERIC, { sig2 with s := { sig2.s with len := 0 } }, rng, c2 ++ done⟩
            else
              match ecdsa_decode_sig P sig2.s.mpi sig2.s.len sig2 with
              | (false, sig3) => ⟨RNP_ERROR_GENERIC, sig3, rng, c2 ++ done⟩
              | (true, sig3) => ⟨RNP_SUCCESS, sig3, rng, c2 ++ done⟩

/-- ecdsa_ossl.cpp:135 `ecdsa_verify`: the result and the calls made.  The local
`sigbuf` is an array of `PGP_MPINT_SIZE` bytes. -/
def ecdsa_verify (P : Provider) (PGP_MPINT_SIZE : Nat) (sig : ec.Signature)
    (hash_alg : Nat) (hash : List Byte) (key : ec.Key) :
    Except Fault (rnp_result_t × List Call) :=
  match P.load_key key.p none key.curve with
  | none => .ok (RNP_ERROR_BAD_PARAMETERS, [Call.load_key key.p none key.curve])
  | some evpkey =>
    let c0 := [Call.load_key key.p none key.curve, Call.EVP_PKEY_CTX_new evpkey]
    match P.EVP_PKEY_CTX_new evpkey with
    | none =>
      .ok (RNP_ERROR_SIGNATURE_INVALID,
        c0 ++ [Call.EVP_PKEY_CTX_free none, Call.EVP_PKEY_free evpkey])
    | some ctx =>
      let done := [Call.EVP_PKEY_CTX_free (some ctx), Call.EVP_PKEY_free evpkey]
      let c1 := c0 ++ [Call.EVP_PKEY_verify_init ctx]
      if P.EVP_PKEY_verify_init ctx ≤ 0 then .ok (RNP_ERROR_SIGNATURE_INVALID, c1 ++ done)
      else
        let sigbuf : mpi := { mpi := List.replicate PGP_MPINT_SIZE 0, len := 0 }
        match ecdsa_encode_sig P sigbuf.mpi sigbuf.len sig with
        | .error f => .error f
        | .ok (false, _, _) => .ok (RNP_ERROR_SIGNATURE_INVALID, c1 ++ done)
        | .ok (true, buf, len) =>
          let c2 := c1 ++ [Call.EVP_PKEY_verify ctx (buf.take len) hash]
          if 0 < P.EVP_PKEY_verify ctx (buf.take len) hash then .ok (RNP_SUCCESS, c2 ++ done)
          else .ok (RNP_ERROR_SIGNATURE_INVALID, c2 ++ done)

/-- The address of a native integer; `NULL` is `none`. -/
abbrev Handle := Nat

/-- The native integers of the provider: the live ones with their values, the next
fresh address, the number of allocations the provider will still serve, and the
addresses `BN_free` was called on, latest first. -/
structure Heap where
  cells : List (Handle × BIGNUM)
  next : Nat
  avail : Nat
  freed : List Handle
  deriving DecidableEq, Repr

/-- The value stored at an address, if it is live. -/
def Heap.read (h : Heap) (p : Handle) : Option BIGNUM := h.cells.lookup p

/-- The library's `BN_new`: a fresh integer 0, or `NULL`. -/
def BN_new (h : Heap) : Option Handle × Heap :=
  if h.avail = 0 then (none, h)
  else (some h.next,
    { h with cells := (h.next, 0) :: h.cells, next := h.next + 1, avail := h.avail - 1 })

/-- The library's `BN_free`: nothing for `NULL`, else the integer is released. -/
def BN_free (h : Heap) (p : Option Handle) : Heap :=
  match p with
  | none => h
  | some a => { h with cells := h.cells.filter (fun c => c.1 != a), freed := a :: h.freed }

/-- The library's `BN_bin2bn(s, len, ret)` with a non-null `ret`: stores the value
in `ret` and returns it, or returns `NULL` when the storage is not served. -/
def BN_bin2bn_at (h : Heap) (s : List Byte) (len : Nat) (ret : Handle) : Option Handle × Heap :=
  if h.avail = 0 then (none, h)
  else (some ret,
    { h with cells := (ret, BN_bin2bn s len) :: h.cells.filter (fun c => c.1 != ret),
             avail := h.avail - 1 })

/-- The library's `BN_bn2bin(a, to)`: writes the bytes at `dst`, without knowing the
size of the array, and returns their number. -/
def BN_bn2bin (a : BIGNUM) (dst : List Byte) : Except Fault (Int × List Byte) :=
  match mem_write dst (BN_bytes a) with
  | .error f => .error f
  | .ok buf => .ok ((BN_num_bytes a : Int), buf)

/-- Modelled from the spec: `mpi2bn` on the heap (its body is not part of the
sources): the integer of `mpi2bn` in a newly allocated cell, or `NULL`. -/
def mpi2bn_heap (h : Heap) (val : mpi) : Option Handle × Heap :=
  match mpi2bn (decide (0 < h.avail)) val with
  | none => (none, h)
  | some n => (some h.next,
    { h with cells := (h.next, n) :: h.cells, next := h.next + 1, avail := h.avail - 1 })

/-- The class `rnp::bn` (bn.h:71): the owned pointer `_bn` and the borrowed
pointer `_c_bn`. -/
structure bn where
  _bn : Option Handle
  _c_bn : Option Handle
  deriving DecidableEq, Repr

/-- bn.h:76 `bn(BIGNUM *val = NULL)`. -/
def bn.new (val : Option Handle) : bn := { _bn := val, _c_bn := none }

/-- bn.h:80 `bn(const BIGNUM *val)`. -/
def bn.new_const (val : Option Handle) : bn := { _bn := none, _c_bn := val }

/-- bn.h:84 and bn.h:87 `bn(const pgp::mpi &val)`, `bn(const pgp::mpi *val)`. -/
def bn.new_mpi (h : Heap) (val : Option mpi) : bn × Heap :=
  match val with
  | none => ({ _bn := none, _c_bn := none }, h)
  | some v =>
    match BN_new h with
    | (none, h1) => ({ _bn := none, _c_bn := none }, h1)
    | (some p, h1) =>
      match BN_bin2bn_at h1 v.mpi v.len p with
      | (none, h2) => ({ _bn := none, _c_bn := none }, BN_free h2 (some p))
      | (some _, h2) => ({ _bn := some p, _c_bn := none }, h2)

/-- bn.h:101 `bn(bn &&src)`: the new wrapper and `src` afterwards. -/
def bn.move (src : bn) : bn × bn :=
  ({ _bn := src._bn, _c_bn := src._c_bn }, { _bn := none, _c_bn := none })

/-- bn.h:109 `operator=(bn &&src)` for `&src != this`: `*this` and `src` afterwards. -/
def bn.move_assign (h : Heap) (this src : bn) : bn × bn × Heap :=
  ({ _bn := src._bn, _c_bn := src._c_bn }, { _bn := none, _c_bn := none }, BN_free h this._bn)

/-- bn.h:123 `~bn()`. -/
def bn.destroy (h : Heap) (this : bn) : Heap := BN_free h this._bn

/-- bn.h:166 `c_get()`. -/
def bn.c_get (this : bn) : Option Handle :=
  match this._bn with
  | some p => some p
  | none => this._c_bn

/-- bn.h:128 `operator bool()`. -/
def bn.to_bool (this : bn) : Bool := this.c_get.isSome

/-- bn.h:133 `set(BIGNUM *val = NULL)`. -/
def bn.set (h : Heap) (this : bn) (val : Option Handle) : bn × Heap :=
  ({ this with _bn := val }, BN_free h this._bn)

/-- bn.h:140 `set(const pgp::mpi &val)`. -/
def bn.set_mpi (h : Heap) (this : bn) (val : mpi) : bn × Heap :=
  match mpi2bn_heap (BN_free h this._bn) val with
  | (p, h1) => ({ this with _bn := p }, h1)

/-- bn.h:147 `ptr()`: the wrapper after the call; the result is `&_bn`. -/
def bn.ptr (h : Heap) (this : bn) : bn × Heap := bn.set h this none

/-- bn.h:160 `get()`. -/
def bn.get (this : bn) : Option Handle := this._bn

/-- bn.h:172 `own()`: the result and the wrapper afterwards. -/
def bn.own (this : bn) : Option Handle × bn := (this._bn, { this with _bn := none })

/-- bn.h:192 `static bool mpi(const BIGNUM *num, pgp::mpi &mpi)`.  `NDEBUG` tells
whether `assert` is compiled out. -/
def bn.mpi_static (NDEBUG : Bool) (h : Heap) (num : Option Handle) (m : Rnp.mpi) :
    Except Fault (Bool × Rnp.mpi) :=
  match num with
  | none => .error Fault.null_deref
  | some p =>
    match h.read p with
    | none => .error Fault.null_deref
    | some n =>
      if NDEBUG = false ∧ ¬ (BN_num_bytes n ≤ m.mpi.length) then .error Fault.assert_failed
      else
        match BN_bn2bin n m.mpi with
        | .error f => .error f
        | .ok (rc, buf) =>
          if rc < 0 then .ok (false, { m with mpi := buf })
          else .ok (true, { mpi := buf, len := BN_num_bytes n })

/-- bn.h:203 `bool mpi(pgp::mpi &mpi) const`. -/
def bn.mpi (NDEBUG : Bool) (h : Heap) (this : bn) (m : Rnp.mpi) : Except Fault (Bool × Rnp.mpi) :=
  bn.mpi_static NDEBUG h this.c_get m

/-- The round trip of a wire integer: `rnp::bn(val)` followed by `mpi(dst)` on it. -/
def to_mpi_from_mpi (NDEBUG : Bool) (h : Heap) (val dst : mpi) : Except Fault (Bool × mpi) :=
  bn.mpi NDEBUG (bn.new_mpi h (some val)).2 (bn.new_mpi h (some val)).1 dst

/-- A heap with nothing allocated that serves `n` allocations. -/
def Heap.empty (n : Nat) : Heap := { cells := [], next := 0, avail := n, freed := [] }

/-! ## Programs over wrappers

A client program is a sequence of operations on wrappers.  The wrappers it has
constructed are numbered in the order of construction; `caller` holds the native
integers the client owns itself (allocated by it, or handed back by `own()`), and
a raw pointer passed to a wrapper for ownership is taken from there. -/

/-- The state of a client program. -/
structure World where
  heap : Heap
  objs : List (Option bn)
  caller : List Handle
  deriving DecidableEq, Repr

/-- The state before the program starts, with `n` allocations to be served. -/
def World.init (n : Nat) : World := { heap := Heap.empty n, objs := [], caller := [] }

/-- The wrapper number `i`, if it is constructed and not yet destroyed. -/
def World.obj (w : World) (i : Nat) : Option bn := w.objs.getD i none

/-- The pointer a wrapper slot owns, as a list. -/
def handles : Option bn → List Handle
  | some b => b._bn.toList
  | none => []

/-- The pointers owned by the wrappers of a list of slots. -/
def owned_of : List (Option bn) → List Handle
  | [] => []
  | o :: os => handles o ++ owned_of os

/-- The pointers owned by the live wrappers. -/
def World.owned (w : World) : List Handle := owned_of w.objs

/-- The operations of a client program.  `client_new` and `client_free` are the
client's own `BN_new` and `BN_free`; `ctor k` and `set i k` pass `NULL` or the
client's integer number `k`; `ptr i store` is `ptr()` followed by the provider
storing a new integer through the returned pointer when `store` is set, `cptr i p`
is `cptr()` followed by a store of the borrowed pointer `p`. -/
inductive Op
  | client_new
  | client_free (k : Nat)
  | ctor (k : Option Nat)
  | ctor_const (p : Option Handle)
  | ctor_mpi (m : Option mpi)
  | move_ctor (src : Nat)
  | move_assign (dst src : Nat)
  | set (i : Nat) (k : Option Nat)
  | set_mpi (i : Nat) (m : mpi)
  | ptr (i : Nat) (store : Bool)
  | cptr (i : Nat) (p : Option Handle)
  | own (i : Nat)
  | dtor (i : Nat)
  deriving DecidableEq, Repr

/-- One operation of the program; an operation on a wrapper that does not exist, or
with a client integer that does not exist, is skipped. -/
def step (w : World) : Op → World
  | .client_new =>
    match BN_new w.heap with
    | (none, h) => { w with heap := h }
    | (some p, h) => { w with heap := h, caller := p :: w.caller }
  | .client_free k =>
    match w.caller[k]? with
    | none => w
    | some p => { w with heap := BN_free w.heap (some p), caller := w.caller.eraseIdx k }
  | .ctor none => { w with objs := w.objs ++ [some (bn.new none)] }
  | .ctor (some k) =>
    match w.caller[k]? with
    | none => w
    | some p =>
      { w with objs := w.objs ++ [some (bn.new (some p))], caller := w.caller.eraseIdx k }
  | .ctor_const p => { w with objs := w.objs ++ [some (bn.new_const p)] }
  | .ctor_mpi m =>
    { w with heap := (bn.new_mpi w.heap m).2, objs := w.objs ++ [some (bn.new_mpi w.heap m).1] }
  | .move_ctor src =>
    match w.obj src with
    | none => w
    | some s => { w with objs := w.objs.set src (some (bn.move s).2) ++ [some (bn.move s).1] }
  | .move_assign dst src =>
    if dst = src then w
    else
      match w.obj dst, w.obj src with
      | some d, some s =>
        { w with heap := (bn.move_assign w.heap d s).2.2,
                 objs := (w.objs.set dst (some (bn.move_assign w.heap d s).1)).set src
                   (some (bn.move_assign w.heap d s).2.1) }
      | _, _ => w
  | .set i none =>
    match w.obj i with
    | none => w
    | some b =>
      { w with heap := (bn.set w.heap b none).2, objs := w.objs.set i (some (bn.set w.heap b none).1) }
  | .set i (some k) =>
    match w.obj i, w.caller[k]? with
    | some b, some p =>
      { heap := (bn.set w.heap b (some p)).2,
        objs := w.objs.set i (some (bn.set w.heap b (some p)).1),
        caller := w.caller.eraseIdx k }
    | _, _ => w
  | .set_mpi i m =>
    match w.obj i with
    | none => w
    | some b =>
      { w with heap := (bn.set_mpi w.heap b m).2,
               objs := w.objs.set i (some (bn.set_mpi w.heap b m).1) }
  | .ptr i store =>
    match w.obj i with
    | none => w
    | some b =>
      if store then
        { w with heap := (BN_new (bn.ptr w.heap b).2).2,
                 objs := w.objs.set i
                   (some { (bn.ptr w.heap b).1 with _bn := (BN_new (bn.ptr w.heap b).2).1 }) }
      else
        { w with heap := (bn.ptr w.heap b).2, objs := w.objs.set i (some (bn.ptr w.heap b).1) }
  | .cptr i p =>
    match w.obj i with
    | none => w
    | some b => { w with objs := w.objs.set i (some { b with _c_bn := p }) }
  | .own i =>
    match w.obj i with
    | none => w
    | some b =>
      { w with objs := w.objs.set i (some (bn.own b).2),
               caller := (bn.own b).1.toList ++ w.caller }
  | .dtor i =>
    match w.obj i with
    | none => w
    | some b => { w with heap := bn.destroy w.heap b, objs := w.objs.set i none }

/-- The state after a program. -/
def run (w : World) (ops : List Op) : World := ops.foldl step w

/-- The number of places a native integer is in: held by the client, owned by a
live wrapper, released. -/
def World.places (w : World) (p : Handle) : Nat :=
  w.caller.count p + w.owned.count p + w.heap.freed.count p

/-- Every native integer allocated so far is in exactly one place, and no other
integer is anywhere. -/
def Accounted (w : World) : Prop :=
  ∀ p : Nat, w.places p = if p < w.heap.next then 1 else 0

/-- The release discipline of a state `w`: every native integer allocated so far is
in exactly one place (held by the client, owned by one live wrapper, or released
once); no integer was released twice; no integer has two owners; an integer owned
by a live wrapper is neither released nor held by the client; and destroying a live
wrapper releases exactly the integer it owns (nothing when it owns none, whatever
it borrows), after which that integer is released exactly once. -/
def ReleasedOnce (w : World) : Prop :=
  Accounted w ∧
  w.heap.freed.Nodup ∧
  w.owned.Nodup ∧
  (∀ p ∈ w.owned, p ∉ w.heap.freed ∧ p ∉ w.caller) ∧
  (∀ i b, w.obj i = some b →
    (step w (Op.dtor i)).heap.freed = b._bn.toList ++ w.heap.freed ∧
    (step w (Op.dtor i)).obj i = none ∧
    (step w (Op.dtor i)).caller = w.caller ∧
    (∀ p, b._bn = some p → (step w (Op.dtor i)).heap.freed.count p = 1))

/-! ## rsa_ossl.cpp -/

/-- The generator `rng_t` of the RSA entry points; `draws` counts its invocations. -/
structure rng_t where
  draws : Nat
  deriving DecidableEq, Repr

/-- The key `pgp_rsa_key_t`: modulus, public exponent and the private parameters. -/
structure pgp_rsa_key_t where
  n : mpi
  e : mpi
  d : mpi
  p : mpi
  q : mpi
  u : mpi
  deriving DecidableEq, Repr

/-- The encrypted value `pgp_rsa_encrypted_t`. -/
structure pgp_rsa_encrypted_t where
  m : mpi
  deriving DecidableEq, Repr

/-- The signature `pgp_rsa_signature_t`. -/
structure pgp_rsa_signature_t where
  s : mpi
  deriving DecidableEq, Repr

/-- rsa_ossl.cpp:34 `rsa_validate_key`: the result and the generator after the call. -/
def rsa_validate_key (rng : rng_t) (key : pgp_rsa_key_t) (secret : Bool) :
    rnp_result_t × rng_t :=
  (RNP_ERROR_NOT_IMPLEMENTED, rng)

/-- rsa_ossl.cpp:40 `rsa_encrypt_pkcs1`: the result, the generator and `*out`. -/
def rsa_encrypt_pkcs1 (rng : rng_t) (out : pgp_rsa_encrypted_t) (in_ : List Byte)
    (in_len : Nat) (key : pgp_rsa_key_t) : rnp_result_t × rng_t × pgp_rsa_encrypted_t :=
  (RNP_ERROR_NOT_IMPLEMENTED, rng, out)

/-- rsa_ossl.cpp:50 `rsa_verify_pkcs1`. -/
def rsa_verify_pkcs1 (sig : pgp_rsa_signature_t) (hash_alg : Nat) (hash : List Byte)
    (hash_len : Nat) (key : pgp_rsa_key_t) : rnp_result_t :=
  RNP_ERROR_NOT_IMPLEMENTED

/-- rsa_ossl.cpp:60 `rsa_sign_pkcs1`: the result, the generator and `*sig`. -/
def rsa_sign_pkcs1 (rng : rng_t) (sig : pgp_rsa_signature_t) (hash_alg : Nat)
    (hash : List Byte) (hash_len : Nat) (key : pgp_rsa_key_t) :
    rnp_result_t × rng_t × pgp_rsa_signature_t :=
  (RNP_ERROR_NOT_IMPLEMENTED, rng, sig)

/-- rsa_ossl.cpp:71 `rsa_decrypt_pkcs1`: the result, the generator, the array `out`
and `*out_len`. -/
def rsa_decrypt_pkcs1 (rng : rng_t) (out : List Byte) (out_len : Nat)
    (in_ : pgp_rsa_encrypted_t) (key : pgp_rsa_key_t) :
    rnp_result_t × rng_t × List Byte × Nat :=
  (RNP_ERROR_NOT_IMPLEMENTED, rng, out, out_len)

/-- rsa_ossl.cpp:81 `rsa_generate`: the result, the generator and `*key`. -/
def rsa_generate (rng : rng_t) (key : pgp_rsa_key_t) (numbits : Nat) :
    rnp_result_t × rng_t × pgp_rsa_key_t :=
  (RNP_ERROR_NOT_IMPLEMENTED, rng, key)

/-! ## backend_version.cpp

A C string is the list of its characters.  The regular-expression engine of the
platform (`regexec`, `std::regex_search` with the extended grammar) is given its
leftmost-longest semantics over the constructs the pattern of `backend_version`
uses. -/

/-- Extended regular expressions: the empty expression, one character, a bracket
range, concatenation and `*`. -/
inductive Regex
  | eps
  | chr (c : Char)
  | range (lo hi : Char)
  | cat (a b : Regex)
  | star (a : Regex)
  deriving DecidableEq, Repr

/-- The expression that matches a literal text. -/
def Regex.str : List Char → Regex
  | [] => Regex.eps
  | c :: cs => Regex.cat (Regex.chr c) (Regex.str cs)

/-- The results of `f` over a list, one after the other. -/
def concat_map {α β : Type} (f : α → List β) : List α → List β
  | [] => []
  | a :: as => f a ++ concat_map f as

/-- What is left of `s` after any number of consecutive matches of an expression
whose single matches are given by `f`; `fuel` bounds the number of matches. -/
def star_ends (f : List Char → List (List Char)) : Nat → List Char → List (List Char)
  | 0, s => [s]
  | fuel + 1, s =>
    s :: concat_map (star_ends f fuel) ((f s).filter (fun t => decide (t.length < s.length)))

/-- What is left of `s` after each way the expression matches at the start of `s`. -/
def Regex.ends : Regex → List Char → List (List Char)
  | Regex.eps, s => [s]
  | Regex.chr _, [] => []
  | Regex.chr c, x :: t => if x = c then [t] else []
  | Regex.range _ _, [] => []
  | Regex.range lo hi, x :: t => if lo ≤ x ∧ x ≤ hi then [t] else []
  | Regex.cat a b, s => concat_map b.ends (a.ends s)
  | Regex.star a, s => star_ends a.ends s.length s

/-- The bracket expression `[0-9]`. -/
def reg_digit : Regex := Regex.range '0' '9'

/-- The pattern of backend_version.cpp:71 before its first group: `OpenSSL `. -/
def reg_before : Regex := Regex.str "OpenSSL ".toList

/-- The first group of the pattern:
`([0-9]\.[0-9]\.[0-9])[a-z]*(-beta[0-9])*(-dev)*`. -/
def reg_group1 : Regex :=
  Regex.cat reg_digit (Regex.cat (Regex.chr '.') (Regex.cat reg_digit
    (Regex.cat (Regex.chr '.') (Regex.cat reg_digit
      (Regex.cat (Regex.star (Regex.range 'a' 'z'))
        (Regex.cat (Regex.star (Regex.cat (Regex.str "-beta".toList) reg_digit))
          (Regex.star (Regex.str "-dev".toList))))))))

/-- The pattern after its first group: one blank. -/
def reg_after : Regex := Regex.chr ' '

/-- Every way the pattern matches at the start of `s`: the text of the first group
and the text left after the match. -/
def match_at (s : List Char) : List (List Char × List Char) :=
  concat_map (fun rest1 =>
    concat_map (fun rest2 =>
      (reg_after.ends rest2).map (fun rest3 => (rest1.take (rest1.length - rest2.length), rest3)))
      (reg_group1.ends rest1))
    (reg_before.ends s)

/-- The longest of the matches: the one that leaves the least text. -/
def longest : List (List Char × List Char) → Option (List Char × List Char)
  | [] => none
  | m :: ms =>
    match longest ms with
    | none => some m
    | some m1 => if m1.2.length < m.2.length then some m1 else some m

/-- The search for the pattern in `s`: the first group of the leftmost match, the
longest one at that place. -/
def regex_search : List Char → Option (List Char)
  | [] => (longest (match_at [])).map (fun m => m.1)
  | c :: s =>
    match longest (match_at (c :: s)) with
    | some m => some m.1
    | none => regex_search s

/-- backend_version.cpp:58 `backend_version` for the OpenSSL backend: the returned
string and the static buffer `version` after the call.  `banner` is the result of
`OpenSSL_version(OPENSSL_VERSION)`, `version` the text in the static buffer of 32
characters, `regcomp_served` whether `regcomp` compiles the pattern. -/
def backend_version (RNP_USE_STD_REGEX NDEBUG regcomp_served : Bool) (banner : List Char)
    (version : List Char) : Except Fault (List Char × List Char) :=
  if version ≠ [] then .ok (version, version)
  else if RNP_USE_STD_REGEX = false then
    if regcomp_served = false then .ok ("unknown".toList, version)
    else
      match regex_search banner with
      | none => .ok ("unknown".toList, version)
      | some v =>
        if NDEBUG = false ∧ ¬ (v.length < 32) then .error Fault.assert_failed
        else if 32 < v.length + 1 then .error Fault.buffer_overrun
        else .ok (v, v)
  else
    match regex_search banner with
    | none => .ok ("unknown".toList, version)
    | some v =>
      if NDEBUG = false ∧ ¬ (v.length < 32) then .error Fault.assert_failed
      else .ok (v.take 31, v.take 31)

/-- The string returned by call number `n + 1` of `backend_version` in a process
whose static buffer holds `version` before the first of these calls. -/
def backend_version_nth (RNP_USE_STD_REGEX NDEBUG regcomp_served : Bool) (banner : List Char) :
    Nat → List Char → Except Fault (List Char)
  | 0, version =>
    match backend_version RNP_USE_STD_REGEX NDEBUG regcomp_served banner version with
    | .error f => .error f
    | .ok (r, _) => .ok r
  | n + 1, version =>
    match backend_version RNP_USE_STD_REGEX NDEBUG regcomp_served banner version with
    | .error f => .error f
    | .ok (_, version1) =>
      backend_version_nth RNP_USE_STD_REGEX NDEBUG regcomp_served banner n version1

/-! ## Concrete inputs -/

/-- The wire integer with the given value bytes in an array of `cap` bytes. -/
def mpi_of (cap : Nat) (bytes : List Byte) : mpi :=
  { mpi := bytes ++ List.replicate (cap - bytes.length) 0, len := bytes.length }

/-- The DER encoding of the pair `(1, 1)`. -/
def der_one_one : List Byte := [0x30, 6, 2, 1, 1, 2, 1, 1]

/-- A provider that serves every request, signs every digest with the pair
`(1, 1)` and accepts exactly that signature. -/
def sample_provider : Provider :=
  { alloc := fun _ => true
    load_key := fun _ _ _ => some 1
    EVP_PKEY_CTX_new := fun _ => some 2
    EVP_PKEY_sign_init := fun _ => 1
    EVP_PKEY_sign := fun _ _ => (1, der_one_one)
    EVP_PKEY_verify_init := fun _ => 1
    EVP_PKEY_verify := fun _ sig _ => if sig = der_one_one then 1 else 0 }

/-- The sample provider with a key loader that refuses every key. -/
def provider_without_key : Provider :=
  { sample_provider with load_key := fun _ _ _ => none }

/-- A key on curve 1 with public point bytes `[4, 1, 2]` and private scalar `[7]`. -/
def sample_key (cap : Nat) : ec.Key :=
  { curve := 1, p := mpi_of cap [4, 1, 2], x := mpi_of cap [7] }

/-- The signature `(1, 1)`. -/
def sample_sig (cap : Nat) : ec.Signature :=
  { r := mpi_of cap [1], s := mpi_of cap [1] }

/-- A client program: a wrapper built from a wire integer, one built from a pointer
of the client, a move assignment between them, a borrowing wrapper, `own`, `set`,
`ptr` with a store, and the destruction of every wrapper. -/
def sample_program : List Op :=
  [Op.ctor_mpi (some (mpi_of 4 [1])), Op.client_new, Op.ctor (some 0), Op.move_assign 0 1,
   Op.ctor_const (some 0), Op.dtor 2, Op.own 0, Op.set 1 (some 0), Op.ptr 1 true,
   Op.dtor 1, Op.dtor 0]

theorem Byte.ofNat_val (n : Nat) : (Byte.ofNat n).val = n % 256 := rfl

theorem le_value_bytes_le (f : Nat) : ∀ n : Nat, n ≤ f → le_value (bytes_le f n) = n := by
  induction f with
  | zero => intro n h; simp [bytes_le, le_value]; omega
  | succ f ih =>
    intro n h
    by_cases hn : n = 0
    · simp [bytes_le, hn, le_value]
    · have h1 : n / 256 ≤ f := by omega
      simp only [bytes_le, hn, if_false, le_value, ih _ h1, Byte.ofNat_val]
      omega

theorem be_value_foldl (s : List Byte) : ∀ a : Nat,
    s.foldl (fun acc (b : Byte) => acc * 256 + b.val) a
      = a * 256 ^ s.length + s.foldl (fun acc (b : Byte) => acc * 256 + b.val) 0 := by
  induction s with
  | nil => intro a; simp
  | cons b bs ih =>
    intro a
    simp only [List.foldl_cons, List.length_cons]
    rw [ih (a * 256 + b.val), ih (0 * 256 + b.val)]
    ring

theorem be_value_cons (b : Byte) (s : List Byte) :
    be_value (b :: s) = b.val * 256 ^ s.length + be_value s := by
  unfold be_value
  simp only [List.foldl_cons]
  rw [be_value_foldl]
  simp

theorem be_value_append (a b : List Byte) :
    be_value (a ++ b) = be_value a * 256 ^ b.length + be_value b := by
  unfold be_value
  rw [List.foldl_append, be_value_foldl]

theorem be_value_reverse (l : List Byte) : be_value l.reverse = le_value l := by
  induction l with
  | nil => rfl
  | cons b bs ih =>
    rw [List.reverse_cons, be_value_append, ih]
    simp [be_value, le_value]
    ring

theorem be_value_BN_bytes (n : BIGNUM) : be_value (BN_bytes n) = n := by
  unfold BN_bytes
  rw [be_value_reverse, le_value_bytes_le n n (Nat.le_refl n)]

theorem le_value_pos (l : List Byte) (hne : l ≠ [])
    (hl : ∀ b, l.getLast? = some b → b ≠ 0) : 0 < le_value l := by
  induction l with
  | nil => exact absurd rfl hne
  | cons b bs ih =>
    by_cases hbs : bs = []
    · subst hbs
      have hb : b ≠ 0 := hl b (by simp)
      have : b.val ≠ 0 := fun h => hb (Fin.ext h)
      simp only [le_value]
      omega
    · have h2 : ∀ c, bs.getLast? = some c → c ≠ 0 := by
        intro c hc
        apply hl c
        simp [List.getLast?_cons, hc]
      have := ih hbs h2
      simp only [le_value]
      omega

theorem bytes_le_le_value (l : List Byte) (hl : ∀ b, l.getLast? = some b → b ≠ 0) :
    ∀ f : Nat, le_value l ≤ f → bytes_le f (le_value l) = l := by
  induction l with
  | nil =>
    intro f _
    cases f <;> simp [bytes_le, le_value]
  | cons b bs ih =>
    intro f hf
    have hpos := le_value_pos (b :: bs) (by simp) hl
    have h2 : ∀ c, bs.getLast? = some c → c ≠ 0 := by
      intro c hc
      by_cases hbs : bs = []
      · subst hbs; simp at hc
      · apply hl c
        simp [List.getLast?_cons, hc]
    cases f with
    | zero => omega
    | succ f =>
      have hb := b.isLt
      simp only [le_value] at hf hpos ⊢
      have hne : ¬ (b.val + 256 * le_value bs = 0) := by omega
      have hdiv : (b.val + 256 * le_value bs) / 256 = le_value bs := by omega
      have hbyte : Byte.ofNat (b.val + 256 * le_value bs) = b := by
        apply Fin.ext
        rw [Byte.ofNat_val]
        omega
      simp only [bytes_le, hne, if_false, hdiv, hbyte]
      rw [ih h2 f (by omega)]

theorem BN_bytes_be_value_of_head (s : List Byte)
    (h : ∀ b, s.head? = some b → b ≠ 0) : BN_bytes (be_value s) = s := by
  have hv : be_value s = le_value s.reverse := by
    have := be_value_reverse s.reverse
    rwa [List.reverse_reverse] at this
  have hl : ∀ b, s.reverse.getLast? = some b → b ≠ 0 := by
    intro b hb
    rw [List.getLast?_reverse] at hb
    exact h b hb
  unfold BN_bytes
  rw [hv, bytes_le_le_value s.reverse hl _ (Nat.le_refl _), List.reverse_reverse]

theorem strip_zeros_cons_zero (s : List Byte) : strip_zeros (0 :: s) = strip_zeros s := by
  simp [strip_zeros, List.dropWhile]

theorem strip_zeros_cons_ne (b : Byte) (s : List Byte) (hb : b ≠ 0) :
    strip_zeros (b :: s) = b :: s := by
  have h : (b == 0) = false := by simpa using hb
  simp [strip_zeros, List.dropWhile, h]

theorem strip_zeros_of_head (s : List Byte) (h : ∀ b, s.head? = some b → b ≠ 0) :
    strip_zeros s = s := by
  cases s with
  | nil => rfl
  | cons b bs => exact strip_zeros_cons_ne b bs (h b rfl)

theorem BN_bytes_be_value (s : List Byte) : BN_bytes (be_value s) = strip_zeros s := by
  induction s with
  | nil => rfl
  | cons b bs ih =>
    by_cases hb : b = 0
    · subst hb
      rw [strip_zeros_cons_zero, ← ih, be_value_cons]
      simp
    · rw [strip_zeros_cons_ne b bs hb]
      apply BN_bytes_be_value_of_head
      intro c hc
      simp at hc
      exact hc ▸ hb

theorem strip_zeros_head (s : List Byte) : ∀ b, (strip_zeros s).head? = some b → b ≠ 0 := by
  induction s with
  | nil => intro b hb; simp [strip_zeros] at hb
  | cons c cs ih =>
    intro b hb
    by_cases hc : c = 0
    · subst hc
      rw [strip_zeros_cons_zero] at hb
      exact ih b hb
    · rw [strip_zeros_cons_ne c cs hc] at hb
      simp at hb
      exact hb ▸ hc

theorem strip_zeros_length_le (s : List Byte) : (strip_zeros s).length ≤ s.length := by
  induction s with
  | nil => simp [strip_zeros]
  | cons c cs ih =>
    by_cases hc : c = 0
    · subst hc
      rw [strip_zeros_cons_zero]
      simp only [List.length_cons]
      omega
    · rw [strip_zeros_cons_ne c cs hc]

theorem BN_bytes_strip (n : BIGNUM) : strip_zeros (BN_bytes n) = BN_bytes n := by
  have h := BN_bytes_be_value (BN_bytes n)
  rw [be_value_BN_bytes] at h
  exact h.symm

theorem BN_bytes_head (n : BIGNUM) : ∀ b, (BN_bytes n).head? = some b → b ≠ 0 := by
  intro b hb
  rw [← BN_bytes_strip] at hb
  exact strip_zeros_head _ b hb

theorem BN_num_bytes_be_value_le (s : List Byte) : BN_num_bytes (be_value s) ≤ s.length := by
  unfold BN_num_bytes
  rw [BN_bytes_be_value]
  exact strip_zeros_length_le s

theorem get_sub_packet_append (c rest : List Byte) :
    get_sub_packet (c ++ rest) c.length = some (c, rest) := by
  simp [get_sub_packet]

theorem der_decode_length_encode (n : Nat) (l : List Byte) (h : der_length n = some l)
    (c rest : List Byte) (hc : c.length = n) :
    der_decode_length (l ++ (c ++ rest)) = some (c, rest) := by
  subst hc
  unfold der_length at h
  split at h
  · exact absurd h (by simp)
  · rename_i h1
    split at h
    · rename_i h2
      have hl : l = [0x82, Byte.ofNat (c.length / 256), Byte.ofNat c.length] := by
        simpa using h.symm
      subst hl
      have e : (Byte.ofNat (c.length / 256)).val * 256 + (Byte.ofNat c.length).val
          = c.length := by
        simp only [Byte.ofNat_val]; omega
      simp only [List.cons_append, List.nil_append, der_decode_length]
      rw [e]
      simpa using get_sub_packet_append c rest
    · rename_i h2
      split at h
      · rename_i h3
        have hl : l = [0x81, Byte.ofNat c.length] := by simpa using h.symm
        subst hl
        have e : (Byte.ofNat c.length).val = c.length := by
          simp only [Byte.ofNat_val]; omega
        simp only [List.cons_append, List.nil_append, der_decode_length]
        rw [e]
        simpa using get_sub_packet_append c rest
      · rename_i h3
        have hl : l = [Byte.ofNat c.length] := by simpa using h.symm
        subst hl
        have e : (Byte.ofNat c.length).val = c.length := by
          simp only [Byte.ofNat_val]; omega
        have e2 : (Byte.ofNat c.length).val < 0x80 := by omega
        simp only [List.cons_append, List.nil_append, der_decode_length, e2, if_true]
        rw [e]
        exact get_sub_packet_append c rest

theorem be_value_der_integer_content (n : BIGNUM) :
    be_value (der_integer_content n) = n := by
  have hv := be_value_BN_bytes n
  unfold der_integer_content
  cases hb : BN_bytes n with
  | nil =>
    rw [hb] at hv
    simpa [be_value] using hv
  | cons b bs =>
    rw [hb] at hv
    by_cases h : 0x80 ≤ b.val
    · simp only [h, if_true]
      rw [be_value_cons]
      simpa using hv
    · simp only [h, if_false]
      exact hv

theorem der_integer_content_ok_content (n : BIGNUM) :
    der_integer_content_ok (der_integer_content n) = true := by
  have hh := BN_bytes_head n
  unfold der_integer_content
  cases hb : BN_bytes n with
  | nil => rfl
  | cons b bs =>
    rw [hb] at hh
    by_cases h : 0x80 ≤ b.val
    · simp only [h, if_true]
      simp [der_integer_content_ok, h]
    · simp only [h, if_false]
      have hb0 : b.val ≠ 0 := fun e => hh b rfl (Fin.ext e)
      cases bs with
      | nil => simp [der_integer_content_ok, h]
      | cons c cs => simp [der_integer_content_ok, h, hb0]

theorem der_integer_content_length (n : BIGNUM) :
    BN_num_bytes n ≤ (der_integer_content n).length ∧
      (der_integer_content n).length ≤ BN_num_bytes n + 1 := by
  unfold der_integer_content BN_num_bytes
  cases hb : BN_bytes n with
  | nil => simp
  | cons b bs =>
    by_cases h : 0x80 ≤ b.val
    · simp only [h, if_true, List.length_cons]; omega
    · simp only [h, if_false, List.length_cons]; omega

theorem der_decode_integer_encode (n : BIGNUM) (ri : List Byte)
    (h : der_integer n = some ri) (rest : List Byte) :
    der_decode_integer (ri ++ rest) = some (n, rest) := by
  unfold der_integer at h
  split at h
  · exact absurd h (by simp)
  · rename_i l hl
    have hri : ri = 0x02 :: (l ++ der_integer_content n) := by simpa using h.symm
    subst hri
    have hd := der_decode_length_encode _ l hl (der_integer_content n) rest rfl
    simp only [List.cons_append, List.append_assoc, der_decode_integer]
    rw [hd]
    simp [der_integer_content_ok_content, be_value_der_integer_content]

theorem der_decode_sig_encode (r s : BIGNUM) (enc : List Byte)
    (h : der_encode_sig r s = some enc) (rest : List Byte) :
    der_decode_sig (enc ++ rest) = some (r, s) := by
  unfold der_encode_sig at h
  split at h
  · rename_i ri si hr hs
    split at h
    · exact absurd h (by simp)
    · rename_i l hl
      have he : enc = 0x30 :: (l ++ (ri ++ si)) := by simpa using h.symm
      subst he
      have hd := der_decode_length_encode _ l hl (ri ++ si) rest (by simp)
      have h1 := der_decode_integer_encode r ri hr si
      have h2 := der_decode_integer_encode s si hs []
      simp only [List.append_nil] at h2
      simp only [List.append_assoc] at hd
      simp only [List.cons_append, List.append_assoc, der_decode_sig]
      rw [hd]
      simp [h1, h2]
      rfl
  · exact absurd h (by simp)

theorem der_length_isSome (n : Nat) (h : n ≤ 0xffff) : ∃ l, der_length n = some l ∧ l.length ≤ 3 := by
  unfold der_length
  split
  · omega
  · split
    · exact ⟨_, rfl, by simp⟩
    · split
      · exact ⟨_, rfl, by simp⟩
      · exact ⟨_, rfl, by simp⟩

theorem der_length_length (n : Nat) (l : List Byte) (h : der_length n = some l) :
    1 ≤ l.length ∧ l.length ≤ 3 := by
  unfold der_length at h
  split at h
  · exact absurd h (by simp)
  · split at h
    · have : l = _ := (Option.some.inj h).symm
      subst this; simp
    · split at h
      · have : l = _ := (Option.some.inj h).symm
        subst this; simp
      · have : l = _ := (Option.some.inj h).symm
        subst this; simp

theorem ecdsa_encode_sig_eq (P : Provider) (data : List Byte) (len : Nat) (sig : ec.Signature) :
    ecdsa_encode_sig P data len sig =
      if P.alloc 0 = true ∧ P.alloc 1 = true ∧ P.alloc 2 = true then
        match der_encode_sig (be_value sig.r.data) (be_value sig.s.data) with
        | none => .ok (false, data, len)
        | some enc =>
          if enc.length ≤ data.length then
            .ok (true, enc ++ data.drop enc.length, enc.length)
          else .error Fault.buffer_overrun
      else .ok (false, data, len) := by
  unfold ecdsa_encode_sig mpi2bn i2d_ECDSA_SIG mem_write BN_bin2bn mpi.data
  cases h0 : P.alloc 0 <;> cases h1 : P.alloc 1 <;> cases h2 : P.alloc 2 <;> simp
  cases der_encode_sig (be_value (List.take sig.r.len sig.r.mpi))
      (be_value (List.take sig.s.len sig.s.mpi)) with
  | none => simp
  | some enc =>
    by_cases hfit : enc.length ≤ data.length
    · simp [hfit]
    · simp [hfit]

/-! ## ecdsa_verify -/

theorem ecdsa_verify_bad_key_cex :
    ecdsa_verify provider_without_key 2048 (sample_sig 2048) 8 [1, 2, 3] (sample_key 2048)
        = .ok (RNP_ERROR_BAD_PARAMETERS,
            [Call.load_key (sample_key 2048).p none (sample_key 2048).curve])
      ∧ RNP_ERROR_BAD_PARAMETERS ≠ RNP_SUCCESS
      ∧ RNP_ERROR_BAD_PARAMETERS ≠ RNP_ERROR_SIGNATURE_INVALID := by
  refine ⟨rfl, by decide, by decide⟩

/-- C1 (as amended): `ecdsa_verify` reports success only after the native verify
primitive was invoked on the DER re-encoding of the signature's `(r, s)` pair and
returned a positive result; it returns BadParameters when the key cannot be loaded
into a native key object; every other result it returns is SignatureInvalid; and it
does return whenever the re-encoding fits the local buffer of `PGP_MPINT_SIZE`
bytes. -/
theorem ecdsa_verify_outcome (P : Provider) (PGP_MPINT_SIZE : Nat) (sig : ec.Signature)
    (hash_alg : Nat) (hash : List Byte) (key : ec.Key) :
    (∀ calls, ecdsa_verify P PGP_MPINT_SIZE sig hash_alg hash key = .ok (RNP_SUCCESS, calls) →
      ∃ evpkey ctx enc,
        P.load_key key.p none key.curve = some evpkey ∧
        P.EVP_PKEY_CTX_new evpkey = some ctx ∧
        der_encode_sig (be_value sig.r.data) (be_value sig.s.data) = some enc ∧
        Call.EVP_PKEY_verify ctx enc hash ∈ calls ∧
        0 < P.EVP_PKEY_verify ctx enc hash) ∧
    (P.load_key key.p none key.curve = none →
      ecdsa_verify P PGP_MPINT_SIZE sig hash_alg hash key
        = .ok (RNP_ERROR_BAD_PARAMETERS, [Call.load_key key.p none key.curve])) ∧
    (∀ ret calls, ecdsa_verify P PGP_MPINT_SIZE sig hash_alg hash key = .ok (ret, calls) →
      P.load_key key.p none key.curve ≠ none → ret ≠ RNP_SUCCESS →
      ret = RNP_ERROR_SIGNATURE_INVALID) ∧
    ((∀ enc, der_encode_sig (be_value sig.r.data) (be_value sig.s.data) = some enc →
        enc.length ≤ PGP_MPINT_SIZE) →
      ∃ ret calls, ecdsa_verify P PGP_MPINT_SIZE sig hash_alg hash key = .ok (ret, calls)) := by
  unfold ecdsa_verify
  cases hk : P.load_key key.p none key.curve with
  | none => simp
  | some evpkey =>
    dsimp only
    cases hc : P.EVP_PKEY_CTX_new evpkey with
    | none => simp
    | some ctx =>
      dsimp only
      by_cases hi : P.EVP_PKEY_verify_init ctx ≤ 0
      · simp [hi]
      · simp only [hi, if_false, ecdsa_encode_sig_eq]
        by_cases ha : P.alloc 0 = true ∧ P.alloc 1 = true ∧ P.alloc 2 = true
        · simp only [ha, and_self, if_true]
          cases he : der_encode_sig (be_value sig.r.data) (be_value sig.s.data) with
          | none => simp
          | some enc =>
            by_cases hfit : enc.length ≤ PGP_MPINT_SIZE
            · have htake : List.take enc.length
                  (enc ++ List.drop enc.length (List.replicate PGP_MPINT_SIZE (0 : Byte))) = enc := by
                simp
              simp only [List.length_replicate, hfit, if_true, htake]
              by_cases hv : 0 < P.EVP_PKEY_verify ctx enc hash
              · simp [hv, hc]
              · simp [hv]
            · simp [hfit]
        · simp [ha]

theorem ecdsa_verify_outcome_witness :
    ∃ ret calls, ecdsa_verify sample_provider 16 (sample_sig 16) 8 [1, 2, 3] (sample_key 16)
      = .ok (ret, calls) :=
  (ecdsa_verify_outcome sample_provider 16 (sample_sig 16) 8 [1, 2, 3] (sample_key 16)).2.2.2
    (by
      intro enc h
      have h1 : der_encode_sig (be_value (sample_sig 16).r.data) (be_value (sample_sig 16).s.data)
          = some der_one_one := by decide
      rw [h1] at h
      have h2 : enc = der_one_one := (Option.some.inj h).symm
      subst h2
      decide)

/-! ## ecdsa_sign -/

/-- C2: for a key whose private scalar has zero bytes, `ecdsa_sign` returns
BadParameters at once: no call is made (no key load, no context, no sign), the
randomness capability comes back as it went in, and the output signature is the
one passed in. -/
theorem ecdsa_sign_no_private_key (P : Provider) (PGP_MPINT_SIZE : Nat) (rng : RNG)
    (sig : ec.Signature) (hash_alg : Nat) (hash : List Byte) (key : ec.Key)
    (hx : key.x.bytes = 0) :
    ecdsa_sign P PGP_MPINT_SIZE rng sig hash_alg hash key
      = { ret := RNP_ERROR_BAD_PARAMETERS, sig := sig, rng := rng, calls := [] } := by
  simp [ecdsa_sign, hx]

theorem ecdsa_sign_no_private_key_witness :
    ecdsa_sign sample_provider 16 { draws := 0 } (sample_sig 16) 8 [1, 2, 3]
        { sample_key 16 with x := mpi_of 16 [] }
      = { ret := RNP_ERROR_BAD_PARAMETERS, sig := sample_sig 16, rng := { draws := 0 },
          calls := [] } :=
  ecdsa_sign_no_private_key sample_provider 16 { draws := 0 } (sample_sig 16) 8 [1, 2, 3]
    { sample_key 16 with x := mpi_of 16 [] } (by decide)

theorem take_overwrite (dst src : List Byte) :
    (overwrite dst src).take src.length = src := by
  simp [overwrite]

theorem ecdsa_decode_sig_fst (P : Provider) (data : List Byte) (len : Nat) (sig : ec.Signature) :
    (ecdsa_decode_sig P data len sig).1 = (d2i_ECDSA_SIG P data len).isSome := by
  unfold ecdsa_decode_sig
  cases d2i_ECDSA_SIG P data len with
  | none => rfl
  | some rs => rfl

theorem ecdsa_sign_ret (P : Provider) (PGP_MPINT_SIZE : Nat) (rng : RNG)
    (sig : ec.Signature) (hash_alg : Nat) (hash : List Byte) (key : ec.Key) :
    (ecdsa_sign P PGP_MPINT_SIZE rng sig hash_alg hash key).ret =
      if key.x.bytes = 0 then RNP_ERROR_BAD_PARAMETERS
      else
        match P.load_key key.p (some key.x) key.curve with
        | none => RNP_ERROR_BAD_PARAMETERS
        | some evpkey =>
          match P.EVP_PKEY_CTX_new evpkey with
          | none => RNP_ERROR_GENERIC
          | some ctx =>
            if P.EVP_PKEY_sign_init ctx ≤ 0 then RNP_ERROR_GENERIC
            else if (P.EVP_PKEY_sign ctx hash).1 ≤ 0 then RNP_ERROR_GENERIC
            else if PGP_MPINT_SIZE < (P.EVP_PKEY_sign ctx hash).2.length then RNP_ERROR_GENERIC
            else if (d2i_ECDSA_SIG P (P.EVP_PKEY_sign ctx hash).2
                (P.EVP_PKEY_sign ctx hash).2.length).isSome then RNP_SUCCESS
            else RNP_ERROR_GENERIC := by
  unfold ecdsa_sign
  by_cases hx : key.x.bytes = 0
  · simp [hx]
  · simp only [hx, if_false]
    cases hk : P.load_key key.p (some key.x) key.curve with
    | none => rfl
    | some evpkey =>
      dsimp only
      cases hc : P.EVP_PKEY_CTX_new evpkey with
      | none => rfl
      | some ctx =>
        dsimp only
        by_cases hi : P.EVP_PKEY_sign_init ctx ≤ 0
        · simp [hi]
        · simp only [hi, if_false]
          unfold EVP_PKEY_sign
          by_cases hr : (P.EVP_PKEY_sign ctx hash).1 ≤ 0
          · simp [hr]
          · simp only [hr, if_false]
            by_cases hl : PGP_MPINT_SIZE < (P.EVP_PKEY_sign ctx hash).2.length
            · simp [hl]
            · simp only [hl, if_false]
              have hd := ecdsa_decode_sig_fst P
                (overwrite sig.s.mpi (P.EVP_PKEY_sign ctx hash).2)
                (P.EVP_PKEY_sign ctx hash).2.length
                { r := sig.r, s := { mpi := overwrite sig.s.mpi (P.EVP_PKEY_sign ctx hash).2,
                                     len := (P.EVP_PKEY_sign ctx hash).2.length } }
              have ht : d2i_ECDSA_SIG P (overwrite sig.s.mpi (P.EVP_PKEY_sign ctx hash).2)
                  (P.EVP_PKEY_sign ctx hash).2.length
                  = d2i_ECDSA_SIG P (P.EVP_PKEY_sign ctx hash).2
                      (P.EVP_PKEY_sign ctx hash).2.length := by
                unfold d2i_ECDSA_SIG
                rw [take_overwrite, List.take_length]
              rw [ht] at hd
              cases hdec : ecdsa_decode_sig P
                (overwrite sig.s.mpi (P.EVP_PKEY_sign ctx hash).2)
                (P.EVP_PKEY_sign ctx hash).2.length
                { r := sig.r, s := { mpi := overwrite sig.s.mpi (P.EVP_PKEY_sign ctx hash).2,
                                     len := (P.EVP_PKEY_sign ctx hash).2.length } } with
              | mk b sig3 =>
                rw [hdec] at hd
                simp only at hd
                cases b with
                | false => simp [← hd, hr]
                | true => simp [← hd, hr]

theorem ecdsa_sign_load_failure_cex :
    (ecdsa_sign provider_without_key 16 { draws := 0 } (sample_sig 16) 8 [1, 2, 3]
        (sample_key 16)).ret = RNP_ERROR_BAD_PARAMETERS
      ∧ (sample_key 16).x.bytes ≠ 0
      ∧ provider_without_key.load_key (sample_key 16).p (some (sample_key 16).x)
          (sample_key 16).curve = none := by
  decide

/-- C3 (as amended): for a key that carries private material, `ecdsa_sign` returns
BadParameters when the key cannot be loaded into a native key object, and Generic
when creating the context, initialising the signing operation, the native sign call
(a non-positive result, or a blob longer than `PGP_MPINT_SIZE`) or parsing the DER
blob fails. -/
theorem ecdsa_sign_failure_codes (P : Provider) (PGP_MPINT_SIZE : Nat) (rng : RNG)
    (sig : ec.Signature) (hash_alg : Nat) (hash : List Byte) (key : ec.Key)
    (hx : key.x.bytes ≠ 0) :
    (P.load_key key.p (some key.x) key.curve = none →
      (ecdsa_sign P PGP_MPINT_SIZE rng sig hash_alg hash key).ret = RNP_ERROR_BAD_PARAMETERS) ∧
    (∀ evpkey, P.load_key key.p (some key.x) key.curve = some evpkey →
      P.EVP_PKEY_CTX_new evpkey = none →
      (ecdsa_sign P PGP_MPINT_SIZE rng sig hash_alg hash key).ret = RNP_ERROR_GENERIC) ∧
    (∀ evpkey ctx, P.load_key key.p (some key.x) key.curve = some evpkey →
      P.EVP_PKEY_CTX_new evpkey = some ctx →
      (P.EVP_PKEY_sign_init ctx ≤ 0 ∨
        (P.EVP_PKEY_sign ctx hash).1 ≤ 0 ∨
        PGP_MPINT_SIZE < (P.EVP_PKEY_sign ctx hash).2.length ∨
        d2i_ECDSA_SIG P (P.EVP_PKEY_sign ctx hash).2 (P.EVP_PKEY_sign ctx hash).2.length = none) →
      (ecdsa_sign P PGP_MPINT_SIZE rng sig hash_alg hash key).ret = RNP_ERROR_GENERIC) := by
  rw [ecdsa_sign_ret]
  refine ⟨?_, ?_, ?_⟩
  · intro hk
    simp [hx, hk]
  · intro evpkey hk hc
    simp [hx, hk, hc]
  · intro evpkey ctx hk hc h
    simp only [hx, if_false, hk, hc]
    by_cases h1 : P.EVP_PKEY_sign_init ctx ≤ 0
    · simp [h1]
    · by_cases h2 : (P.EVP_PKEY_sign ctx hash).1 ≤ 0
      · simp [h1, h2]
      · by_cases h3 : PGP_MPINT_SIZE < (P.EVP_PKEY_sign ctx hash).2.length
        · simp [h1, h2, h3]
        · have h4 : d2i_ECDSA_SIG P (P.EVP_PKEY_sign ctx hash).2
              (P.EVP_PKEY_sign ctx hash).2.length = none := by
            rcases h with h | h | h | h
            · exact absurd h h1
            · exact absurd h h2
            · exact absurd h h3
            · exact h
          simp [h1, h2, h3, h4]

theorem ecdsa_sign_failure_codes_witness :
    (ecdsa_sign { sample_provider with EVP_PKEY_sign := fun _ _ => (0, []) } 16 { draws := 0 }
        (sample_sig 16) 8 [1, 2, 3] (sample_key 16)).ret = RNP_ERROR_GENERIC :=
  (ecdsa_sign_failure_codes { sample_provider with EVP_PKEY_sign := fun _ _ => (0, []) } 16
    { draws := 0 } (sample_sig 16) 8 [1, 2, 3] (sample_key 16) (by decide)).2.2 1 2 rfl rfl
    (Or.inr (Or.inl (by decide)))

/-! ## Encoding and decoding a signature -/

theorem mpi_data_length (m : mpi) (h : m.len ≤ m.mpi.length) : m.data.length = m.len := by
  simp [mpi.data, h]

theorem bn2mpi_fits (bn : BIGNUM) (val : mpi) (h : BN_num_bytes bn ≤ val.mpi.length) :
    bn2mpi bn val
      = (true, { mpi := overwrite val.mpi (BN_bytes bn), len := BN_num_bytes bn }) := by
  unfold bn2mpi
  simp [Nat.not_lt.mpr h]

theorem bn2mpi_fits_data (bn : BIGNUM) (val : mpi) (h : BN_num_bytes bn ≤ val.mpi.length) :
    (bn2mpi bn val).2.data = BN_bytes bn ∧ (bn2mpi bn val).2.len = BN_num_bytes bn ∧
      (bn2mpi bn val).2.mpi.length = val.mpi.length := by
  rw [bn2mpi_fits bn val h]
  refine ⟨?_, rfl, ?_⟩
  · simp [mpi.data, overwrite, BN_num_bytes]
  · simp only [overwrite, List.length_append, List.length_drop]
    unfold BN_num_bytes at h
    omega

theorem be_value_strip_zeros (s : List Byte) : be_value (strip_zeros s) = be_value s := by
  rw [← BN_bytes_be_value, be_value_BN_bytes]

theorem strip_zeros_idem (s : List Byte) : strip_zeros (strip_zeros s) = strip_zeros s :=
  strip_zeros_of_head _ (strip_zeros_head s)

theorem mpi_of_data (cap : Nat) (bytes : List Byte) : (mpi_of cap bytes).data = bytes := by
  simp [mpi_of, mpi.data]

theorem mpi_of_wf (cap : Nat) (bytes : List Byte) (h : bytes.length ≤ cap) :
    (mpi_of cap bytes).wf cap := by
  simp only [mpi.wf, mpi_of, List.length_append, List.length_replicate]
  omega

theorem mpi_of_mpi_length (cap : Nat) (bytes : List Byte) (h : bytes.length ≤ cap) :
    (mpi_of cap bytes).mpi.length = cap := (mpi_of_wf cap bytes h).1

theorem bn_mpi_static_fits (NDEBUG : Bool) (h : Heap) (p : Handle) (n : BIGNUM) (m : mpi)
    (hp : h.read p = some n) (hfit : BN_num_bytes n ≤ m.mpi.length) :
    bn.mpi_static NDEBUG h (some p) m
      = .ok (true, { mpi := overwrite m.mpi (BN_bytes n), len := BN_num_bytes n }) := by
  have hfit1 : (BN_bytes n).length ≤ m.mpi.length := hfit
  simp [bn.mpi_static, hp, hfit, BN_bn2bin, mem_write, hfit1, overwrite]

theorem bn_new_mpi_served (h : Heap) (val : mpi) (hav : 2 ≤ h.avail) :
    (bn.new_mpi h (some val)).1 = { _bn := some h.next, _c_bn := none } ∧
      (bn.new_mpi h (some val)).2.read h.next = some (be_value val.data) := by
  have h0 : ¬ h.avail = 0 := by omega
  have h1 : ¬ h.avail - 1 = 0 := by omega
  simp [bn.new_mpi, BN_new, BN_bin2bn_at, h0, h1, Heap.read, List.lookup, BN_bin2bn, mpi.data]

theorem to_mpi_from_mpi_eq (NDEBUG : Bool) (h : Heap) (val dst : mpi) (hav : 2 ≤ h.avail)
    (hv : val.len ≤ val.mpi.length) (hd : val.len ≤ dst.mpi.length) :
    to_mpi_from_mpi NDEBUG h val dst
      = .ok (true, { mpi := overwrite dst.mpi (strip_zeros val.data),
                     len := (strip_zeros val.data).length }) := by
  obtain ⟨e1, e2⟩ := bn_new_mpi_served h val hav
  have hn : BN_num_bytes (be_value val.data) ≤ dst.mpi.length := by
    have := BN_num_bytes_be_value_le val.data
    rw [mpi_data_length _ hv] at this
    omega
  unfold to_mpi_from_mpi bn.mpi
  rw [e1]
  have hc : bn.c_get { _bn := some h.next, _c_bn := none } = some h.next := rfl
  rw [hc, bn_mpi_static_fits NDEBUG _ h.next _ dst e2 hn]
  unfold BN_num_bytes
  rw [BN_bytes_be_value]

theorem to_mpi_from_mpi_leading_zero_cex :
    (mpi_of 2048 [0, 1]).wf 2048
      ∧ to_mpi_from_mpi false (Heap.empty 2) (mpi_of 2048 [0, 1]) (mpi_of 2048 [])
          = .ok (true, { mpi := overwrite (mpi_of 2048 []).mpi [1], len := 1 })
      ∧ (mpi_of 2048 [0, 1]).len = 2 ∧ (mpi_of 2048 [0, 1]).data = [0, 1]
      ∧ mpi.data { mpi := overwrite (mpi_of 2048 []).mpi [1], len := 1 } = [1] := by
  refine ⟨mpi_of_wf _ _ (by decide), ?_, rfl, mpi_of_data _ _, ?_⟩
  · have h := to_mpi_from_mpi_eq false (Heap.empty 2) (mpi_of 2048 [0, 1]) (mpi_of 2048 [])
      (by decide)
      (by rw [mpi_of_mpi_length _ _ (by decide)]; decide)
      (by rw [mpi_of_mpi_length _ _ (by decide)]; decide)
    rw [mpi_of_data] at h
    exact h
  · exact take_overwrite _ [1]

/-- C5 (as amended): for every valid wire value `m` (length at most the array size
`PGP_MPINT_SIZE`), with the two allocations served, building `rnp::bn(m)` and
converting it back with `bn::mpi` succeeds and yields the same integer: the value
bytes of `m` without leading zero bytes, with their length, so the same bytes up to
leading zero bytes; it yields the bytes and the length of `m` exactly when `m` does
not start with a zero byte. -/
theorem to_mpi_from_mpi_roundtrip (NDEBUG : Bool) (PGP_MPINT_SIZE : Nat) (h : Heap)
    (m dst : mpi) (hav : 2 ≤ h.avail)
    (hm : m.wf PGP_MPINT_SIZE) (hdst : dst.wf PGP_MPINT_SIZE) :
    ∃ m1, to_mpi_from_mpi NDEBUG h m dst = .ok (true, m1) ∧
      m1.data = strip_zeros m.data ∧ m1.len = (strip_zeros m.data).length ∧
      be_value m1.data = be_value m.data ∧
      strip_zeros m1.data = strip_zeros m.data ∧
      (m.data.head? ≠ some 0 → m1.data = m.data ∧ m1.len = m.len) := by
  obtain ⟨hm1, hm2⟩ := hm
  obtain ⟨hd1, _⟩ := hdst
  have hlen := strip_zeros_length_le m.data
  rw [mpi_data_length _ (by omega)] at hlen
  have hdata : mpi.data ⟨overwrite dst.mpi (strip_zeros m.data), (strip_zeros m.data).length⟩
      = strip_zeros m.data := take_overwrite _ _
  refine ⟨_, to_mpi_from_mpi_eq NDEBUG h m dst hav (by omega) (by omega), hdata, rfl, ?_, ?_, ?_⟩
  · rw [hdata, be_value_strip_zeros]
  · rw [hdata, strip_zeros_idem]
  · intro hh
    have e : strip_zeros m.data = m.data :=
      strip_zeros_of_head _ (fun b hb hb0 => hh (hb0 ▸ hb))
    rw [hdata]
    exact ⟨e, by rw [e, mpi_data_length _ (by omega)]⟩

theorem to_mpi_from_mpi_roundtrip_witness :
    ∃ m1, to_mpi_from_mpi false (Heap.empty 2) (mpi_of 16 [0x81, 2]) (mpi_of 16 [9, 9, 9])
        = .ok (true, m1) ∧ m1.data = [0x81, 2] ∧ m1.len = 2 := by
  obtain ⟨m1, h, h1, h2, _⟩ := to_mpi_from_mpi_roundtrip false 16 (Heap.empty 2)
    (mpi_of 16 [0x81, 2]) (mpi_of 16 [9, 9, 9]) (by decide) (by decide) (by decide)
  refine ⟨m1, h, ?_, ?_⟩
  · rw [h1]; decide
  · rw [h2]; decide

theorem owned_of_append (os : List (Option bn)) (o : Option bn) :
    owned_of (os ++ [o]) = owned_of os ++ handles o := by
  induction os with
  | nil => simp [owned_of]
  | cons a as ih => simp [owned_of, ih]

theorem count_owned_of_set (p : Handle) (x : Option bn) :
    ∀ (os : List (Option bn)) (i : Nat) (b : bn), os.getD i none = some b →
      (owned_of (os.set i x)).count p + (handles (some b)).count p
        = (owned_of os).count p + (handles x).count p := by
  intro os
  induction os with
  | nil => intro i b h; simp at h
  | cons a as ih =>
    intro i b h
    cases i with
    | zero =>
      have ha : a = some b := by simpa using h
      subst ha
      simp only [List.set_cons_zero, owned_of, List.count_append]
      omega
    | succ i =>
      have h1 : as.getD i none = some b := by simpa using h
      have := ih i b h1
      simp only [List.set_cons_succ, owned_of, List.count_append]
      omega

theorem count_eraseIdx (p q : Handle) :
    ∀ (l : List Handle) (k : Nat), l[k]? = some q →
      l.count p = (l.eraseIdx k).count p + [q].count p := by
  intro l
  induction l with
  | nil => intro k h; simp at h
  | cons a as ih =>
    intro k h
    cases k with
    | zero =>
      have ha : a = q := by simpa using h
      subst ha
      simp only [List.eraseIdx_cons_zero, List.count_cons, List.count_nil]
      omega
    | succ k =>
      have h1 : as[k]? = some q := by simpa using h
      have := ih k h1
      simp only [List.eraseIdx_cons_succ, List.count_cons, List.count_nil] at this ⊢
      omega

theorem BN_free_freed (h : Heap) (o : Option Handle) :
    (BN_free h o).freed = o.toList ++ h.freed ∧ (BN_free h o).next = h.next := by
  cases o <;> simp [BN_free]

theorem BN_new_spec (h : Heap) :
    ((BN_new h).1 = none ∧ (BN_new h).2 = h) ∨
    ((BN_new h).1 = some h.next ∧ (BN_new h).2.next = h.next + 1 ∧
      (BN_new h).2.freed = h.freed) := by
  unfold BN_new
  by_cases ha : h.avail = 0
  · left; simp [ha]
  · right; simp [ha]

theorem count_single (p q : Nat) : [q].count p = if q = p then 1 else 0 := by
  by_cases e : q = p
  · simp [e]
  · simp [e, List.count_cons]

theorem count_cons_single (p q : Nat) (l : List Handle) :
    (q :: l).count p = [q].count p + l.count p := by
  have : q :: l = [q] ++ l := rfl
  rw [this, List.count_append]

theorem accounted_of_same (w w1 : World) (h : Accounted w)
    (hn : w1.heap.next = w.heap.next) (hp : ∀ p : Nat, w1.places p = w.places p) :
    Accounted w1 := by
  intro p
  rw [hp p, hn]
  exact h p

theorem accounted_of_alloc (w w1 : World) (h : Accounted w)
    (hn : w1.heap.next = w.heap.next + 1)
    (hp : ∀ p : Nat, w1.places p = w.places p + [w.heap.next].count p) :
    Accounted w1 := by
  intro p
  rw [hp p, hn, h p, count_single]
  by_cases e : w.heap.next = p
  · subst e
    simp
  · rw [if_neg e]
    have e1 : ¬ p = w.heap.next := fun e2 => e e2.symm
    rcases Nat.lt_or_ge p w.heap.next with hlt | hge
    · have h1 : p < w.heap.next + 1 := by omega
      rw [if_pos hlt, if_pos h1]
    · have h1 : ¬ p < w.heap.next := by omega
      have h2 : ¬ p < w.heap.next + 1 := by omega
      rw [if_neg h1, if_neg h2]

theorem mpi2bn_heap_spec (h : Heap) (val : mpi) :
    ((mpi2bn_heap h val).1 = none ∧ (mpi2bn_heap h val).2 = h) ∨
    ((mpi2bn_heap h val).1 = some h.next ∧ (mpi2bn_heap h val).2.next = h.next + 1 ∧
      (mpi2bn_heap h val).2.freed = h.freed) := by
  unfold mpi2bn_heap mpi2bn
  by_cases ha : 0 < h.avail
  · right; simp [ha]
  · left; simp [ha]

theorem bn_new_mpi_spec (h : Heap) (m : Option mpi) :
    ((bn.new_mpi h m).1._bn = none ∧ (bn.new_mpi h m).2.next = h.next ∧
      (bn.new_mpi h m).2.freed = h.freed) ∨
    ((bn.new_mpi h m).1._bn = none ∧ (bn.new_mpi h m).2.next = h.next + 1 ∧
      (bn.new_mpi h m).2.freed = h.next :: h.freed) ∨
    ((bn.new_mpi h m).1._bn = some h.next ∧ (bn.new_mpi h m).2.next = h.next + 1 ∧
      (bn.new_mpi h m).2.freed = h.freed) := by
  cases m with
  | none => left; simp [bn.new_mpi]
  | some v =>
    by_cases ha : h.avail = 0
    · left; simp [bn.new_mpi, BN_new, ha]
    · by_cases hb : h.avail - 1 = 0
      · right; left
        simp [bn.new_mpi, BN_new, ha, BN_bin2bn_at, hb, BN_free]
      · right; right
        simp [bn.new_mpi, BN_new, ha, BN_bin2bn_at, hb]

theorem step_accounted_client (w : World) (h : Accounted w) :
    Accounted (step w Op.client_new) ∧ ∀ k, Accounted (step w (Op.client_free k)) := by
  refine ⟨?_, ?_⟩
  · by_cases ha : w.heap.avail = 0
    · simp only [step, BN_new, ha, if_true]
      exact h
    · simp only [step, BN_new, ha, if_false]
      apply accounted_of_alloc w _ h rfl
      intro p
      simp only [World.places, World.owned]
      rw [count_cons_single]
      omega
  · intro k
    cases hc : w.caller[k]? with
    | none => simp only [step, hc]; exact h
    | some q =>
      simp only [step, hc, BN_free]
      apply accounted_of_same w _ h (by rfl)
      intro p
      simp only [World.places, World.owned]
      rw [count_cons_single, count_eraseIdx p q w.caller k hc]
      omega

theorem step_accounted_ctor (w : World) (h : Accounted w) :
    (∀ k, Accounted (step w (Op.ctor k))) ∧ (∀ p0, Accounted (step w (Op.ctor_const p0))) ∧
      ∀ m, Accounted (step w (Op.ctor_mpi m)) := by
  refine ⟨?_, ?_, ?_⟩
  · intro k
    cases k with
    | none =>
      simp only [step]
      apply accounted_of_same w _ h (by rfl)
      intro p
      simp [World.places, World.owned, owned_of_append, handles, bn.new]
    | some k =>
      cases hc : w.caller[k]? with
      | none => simp only [step, hc]; exact h
      | some q =>
        simp only [step, hc]
        apply accounted_of_same w _ h (by rfl)
        intro p
        simp only [World.places, World.owned, owned_of_append, handles, bn.new,
          List.count_append, Option.toList]
        rw [count_eraseIdx p q w.caller k hc]
        omega
  · intro p0
    simp only [step]
    apply accounted_of_same w _ h (by rfl)
    intro p
    simp [World.places, World.owned, owned_of_append, handles, bn.new_const]
  · intro m
    simp only [step]
    rcases bn_new_mpi_spec w.heap m with ⟨h1, h2, h3⟩ | ⟨h1, h2, h3⟩ | ⟨h1, h2, h3⟩
    · apply accounted_of_same w _ h h2
      intro p
      simp [World.places, World.owned, owned_of_append, handles, h1, h3]
    · apply accounted_of_alloc w _ h h2
      intro p
      simp only [World.places, World.owned, owned_of_append, handles, h1, h3,
        List.count_append, Option.toList, List.count_nil]
      rw [count_cons_single]
      omega
    · apply accounted_of_alloc w _ h h2
      intro p
      simp only [World.places, World.owned, owned_of_append, handles, h1, h3,
        List.count_append, Option.toList]
      omega

theorem getD_set_ne (os : List (Option bn)) (i j : Nat) (x : Option bn) (hij : i ≠ j) :
    (os.set i x).getD j none = os.getD j none := by
  simp [List.getD_eq_getElem?_getD, List.getElem?_set_ne hij]

theorem step_accounted_move (w : World) (h : Accounted w) :
    (∀ src, Accounted (step w (Op.move_ctor src))) ∧
      ∀ dst src, Accounted (step w (Op.move_assign dst src)) := by
  refine ⟨?_, ?_⟩
  · intro src
    cases ho : w.obj src with
    | none => simp only [step, ho]; exact h
    | some s =>
      simp only [step, ho]
      apply accounted_of_same w _ h (by rfl)
      intro p
      have hs := count_owned_of_set p (some (bn.move s).2) w.objs src s ho
      simp only [World.places, World.owned, owned_of_append, handles, bn.move,
        List.count_append, Option.toList, List.count_nil] at hs ⊢
      omega
  · intro dst src
    by_cases e : dst = src
    · simp only [step, e, if_true]; exact h
    · cases hd : w.obj dst with
      | none => simp only [step, e, if_false, hd]; exact h
      | some d =>
        cases hs : w.obj src with
        | none => simp only [step, e, if_false, hd, hs]; exact h
        | some s =>
          simp only [step, e, if_false, hd, hs]
          apply accounted_of_same w _ h (BN_free_freed w.heap d._bn).2
          intro p
          have h1 := count_owned_of_set p (some (bn.move_assign w.heap d s).1) w.objs dst d hd
          have hs1 : (w.objs.set dst (some (bn.move_assign w.heap d s).1)).getD src none
              = some s := by
            rw [getD_set_ne _ _ _ _ e]; exact hs
          have h2 := count_owned_of_set p (some (bn.move_assign w.heap d s).2.1)
            (w.objs.set dst (some (bn.move_assign w.heap d s).1)) src s hs1
          simp only [World.places, World.owned, handles, bn.move_assign,
            (BN_free_freed w.heap d._bn).1, List.count_append, Option.toList,
            List.count_nil] at h1 h2 ⊢
          omega

theorem step_accounted_set (w : World) (h : Accounted w) :
    (∀ i k, Accounted (step w (Op.set i k))) ∧ ∀ i m, Accounted (step w (Op.set_mpi i m)) := by
  refine ⟨?_, ?_⟩
  · intro i k
    cases ho : w.obj i with
    | none => cases k <;> simp only [step, ho] <;> exact h
    | some b =>
      cases k with
      | none =>
        simp only [step, ho]
        apply accounted_of_same w _ h (BN_free_freed w.heap b._bn).2
        intro p
        have h1 := count_owned_of_set p (some (bn.set w.heap b none).1) w.objs i b ho
        simp only [World.places, World.owned, handles, bn.set,
          (BN_free_freed w.heap b._bn).1, List.count_append, Option.toList,
          List.count_nil] at h1 ⊢
        omega
      | some k =>
        cases hc : w.caller[k]? with
        | none => simp only [step, ho, hc]; exact h
        | some q =>
          simp only [step, ho, hc]
          apply accounted_of_same w _ h (BN_free_freed w.heap b._bn).2
          intro p
          have h1 := count_owned_of_set p (some (bn.set w.heap b (some q)).1) w.objs i b ho
          simp only [World.places, World.owned, handles, bn.set,
            (BN_free_freed w.heap b._bn).1, List.count_append, Option.toList] at h1 ⊢
          rw [count_eraseIdx p q w.caller k hc]
          omega
  · intro i m
    cases ho : w.obj i with
    | none => simp only [step, ho]; exact h
    | some b =>
      simp only [step, ho]
      have hf := BN_free_freed w.heap b._bn
      rcases mpi2bn_heap_spec (BN_free w.heap b._bn) m with ⟨e1, e2⟩ | ⟨e1, e2, e3⟩
      · have hh : (bn.set_mpi w.heap b m).2 = BN_free w.heap b._bn := by
          simp only [bn.set_mpi]; exact e2
        have hb : (bn.set_mpi w.heap b m).1 = { b with _bn := none } := by
          simp only [bn.set_mpi]; rw [e1]
        apply accounted_of_same w _ h (by rw [hh]; exact hf.2)
        intro p
        have h1 := count_owned_of_set p (some (bn.set_mpi w.heap b m).1) w.objs i b ho
        simp only [World.places, World.owned, handles, hh, hb, hf.1, List.count_append,
          Option.toList, List.count_nil] at h1 ⊢
        omega
      · have hb : (bn.set_mpi w.heap b m).1 = { b with _bn := some w.heap.next } := by
          simp only [bn.set_mpi]; rw [e1, hf.2]
        have hn : (bn.set_mpi w.heap b m).2.next = w.heap.next + 1 := by
          simp only [bn.set_mpi]; rw [e2, hf.2]
        have hfr : (bn.set_mpi w.heap b m).2.freed = b._bn.toList ++ w.heap.freed := by
          simp only [bn.set_mpi]; rw [e3, hf.1]
        apply accounted_of_alloc w _ h hn
        intro p
        have h1 := count_owned_of_set p (some (bn.set_mpi w.heap b m).1) w.objs i b ho
        simp only [World.places, World.owned, handles, hb, hfr, List.count_append,
          Option.toList] at h1 ⊢
        omega

theorem step_accounted_ptr (w : World) (h : Accounted w) :
    (∀ i store, Accounted (step w (Op.ptr i store))) ∧
      ∀ i p0, Accounted (step w (Op.cptr i p0)) := by
  refine ⟨?_, ?_⟩
  · intro i store
    cases ho : w.obj i with
    | none => simp only [step, ho]; exact h
    | some b =>
      have hf := BN_free_freed w.heap b._bn
      have hp2 : (bn.ptr w.heap b).2 = BN_free w.heap b._bn := rfl
      have hp1 : (bn.ptr w.heap b).1 = { b with _bn := none } := rfl
      cases store with
      | false =>
        simp only [step, ho, Bool.false_eq_true, if_false]
        apply accounted_of_same w _ h (by rw [hp2]; exact hf.2)
        intro p
        have h1 := count_owned_of_set p (some (bn.ptr w.heap b).1) w.objs i b ho
        simp only [World.places, World.owned, handles, hp1, hp2, hf.1, List.count_append,
          Option.toList, List.count_nil] at h1 ⊢
        omega
      | true =>
        simp only [step, ho, if_true]
        rcases BN_new_spec (bn.ptr w.heap b).2 with ⟨e1, e2⟩ | ⟨e1, e2, e3⟩
        · apply accounted_of_same w _ h (by rw [e2, hp2]; exact hf.2)
          intro p
          have h1 := count_owned_of_set p
            (some { (bn.ptr w.heap b).1 with _bn := (BN_new (bn.ptr w.heap b).2).1 }) w.objs i b ho
          rw [hp2] at e1 e2 h1
          simp only [World.places, World.owned, handles, e1, e2, hp1, hp2, hf.1,
            List.count_append, Option.toList, List.count_nil] at h1 ⊢
          omega
        · rw [hp2, hf.2] at e1 e2
          rw [hp2, hf.1] at e3
          apply accounted_of_alloc w _ h e2
          intro p
          have h1 := count_owned_of_set p
            (some { (bn.ptr w.heap b).1 with _bn := (BN_new (bn.ptr w.heap b).2).1 }) w.objs i b ho
          rw [hp2] at h1
          simp only [World.places, World.owned, handles, e1, e3, hp1, hp2,
            List.count_append, Option.toList] at h1 ⊢
          omega
  · intro i p0
    cases ho : w.obj i with
    | none => simp only [step, ho]; exact h
    | some b =>
      simp only [step, ho]
      apply accounted_of_same w _ h (by rfl)
      intro p
      have h1 := count_owned_of_set p (some { b with _c_bn := p0 }) w.objs i b ho
      simp only [World.places, World.owned, handles] at h1 ⊢
      omega

theorem step_accounted_own (w : World) (h : Accounted w) :
    (∀ i, Accounted (step w (Op.own i))) ∧ ∀ i, Accounted (step w (Op.dtor i)) := by
  refine ⟨?_, ?_⟩
  · intro i
    cases ho : w.obj i with
    | none => simp only [step, ho]; exact h
    | some b =>
      simp only [step, ho]
      apply accounted_of_same w _ h (by rfl)
      intro p
      have h1 := count_owned_of_set p (some (bn.own b).2) w.objs i b ho
      simp only [World.places, World.owned, handles, bn.own, List.count_append,
        Option.toList, List.count_nil] at h1 ⊢
      omega
  · intro i
    cases ho : w.obj i with
    | none => simp only [step, ho]; exact h
    | some b =>
      simp only [step, ho]
      apply accounted_of_same w _ h (BN_free_freed w.heap b._bn).2
      intro p
      have h1 := count_owned_of_set p none w.objs i b ho
      simp only [World.places, World.owned, handles, bn.destroy,
        (BN_free_freed w.heap b._bn).1, List.count_append, List.count_nil] at h1 ⊢
      omega

theorem step_accounted (w : World) (op : Op) (h : Accounted w) : Accounted (step w op) := by
  cases op with
  | client_new => exact (step_accounted_client w h).1
  | client_free k => exact (step_accounted_client w h).2 k
  | ctor k => exact (step_accounted_ctor w h).1 k
  | ctor_const p => exact (step_accounted_ctor w h).2.1 p
  | ctor_mpi m => exact (step_accounted_ctor w h).2.2 m
  | move_ctor src => exact (step_accounted_move w h).1 src
  | move_assign dst src => exact (step_accounted_move w h).2 dst src
  | set i k => exact (step_accounted_set w h).1 i k
  | set_mpi i m => exact (step_accounted_set w h).2 i m
  | ptr i store => exact (step_accounted_ptr w h).1 i store
  | cptr i p => exact (step_accounted_ptr w h).2 i p
  | own i => exact (step_accounted_own w h).1 i
  | dtor i => exact (step_accounted_own w h).2 i

theorem run_accounted (ops : List Op) : ∀ w : World, Accounted w → Accounted (run w ops) := by
  induction ops with
  | nil => intro w h; exact h
  | cons op ops ih =>
    intro w h
    exact ih (step w op) (step_accounted w op h)

theorem init_accounted (n : Nat) : Accounted (World.init n) := by
  intro p
  simp [World.places, World.owned, World.init, Heap.empty, owned_of]

theorem count_owned_pos (p : Nat) (os : List (Option bn)) (i : Nat) (b : bn)
    (ho : os.getD i none = some b) (hb : b._bn = some p) : 1 ≤ (owned_of os).count p := by
  have h1 := count_owned_of_set p none os i b ho
  simp only [handles, hb, Option.toList, List.count_nil] at h1
  rw [count_single, if_pos rfl] at h1
  omega

theorem released_once_of_accounted (w : World) (h : Accounted w) : ReleasedOnce w := by
  have hle : ∀ p : Nat, w.caller.count p + w.owned.count p + w.heap.freed.count p ≤ 1 := by
    intro p
    have := h p
    unfold World.places at this
    split_ifs at this <;> omega
  refine ⟨h, ?_, ?_, ?_, ?_⟩
  · rw [List.nodup_iff_count_le_one]
    intro p
    have := hle p
    omega
  · rw [List.nodup_iff_count_le_one]
    intro p
    have := hle p
    omega
  · intro p hp
    have h1 : 0 < w.owned.count p := List.count_pos_iff.mpr hp
    have := hle p
    refine ⟨?_, ?_⟩
    · intro hf
      have : 0 < w.heap.freed.count p := List.count_pos_iff.mpr hf
      omega
    · intro hc
      have : 0 < w.caller.count p := List.count_pos_iff.mpr hc
      omega
  · intro i b ho
    have hf := BN_free_freed w.heap b._bn
    have hlen : i < w.objs.length := by
      by_contra hge
      have : w.objs.getD i none = none := by
        simp [List.getD_eq_getElem?_getD, List.getElem?_eq_none (Nat.le_of_not_lt hge)]
      unfold World.obj at ho
      rw [this] at ho
      exact absurd ho (by simp)
    refine ⟨?_, ?_, ?_, ?_⟩
    · simp only [step, ho, bn.destroy]
      exact hf.1
    · have e : step w (Op.dtor i)
          = { w with heap := bn.destroy w.heap b, objs := w.objs.set i none } := by
        simp only [step, ho]
      rw [e]
      simp [World.obj, List.getD_eq_getElem?_getD, List.getElem?_set_self hlen]
    · simp only [step, ho]
    · intro p hb
      simp only [step, ho, bn.destroy]
      rw [hf.1, hb]
      have h1 := count_owned_pos p w.objs i b ho hb
      have h2 := hle p
      unfold World.owned at h2
      simp only [Option.toList, List.count_append]
      rw [count_single, if_pos rfl]
      omega

/-- C10: after any program over big-number wrappers (construction from nothing, from
a pointer the client owns, from a borrowed pointer or from a wire integer; move
construction and move assignment; `set`, `ptr`, `cptr`, `own`; destruction), every
native integer is in exactly one place: it was released exactly once, or it is owned
by exactly one live wrapper, or the client holds it.  No integer is released twice,
and destroying a live wrapper releases exactly the pointer it owns, once, and never
the pointer it merely borrows. -/
theorem bn_released_exactly_once (n : Nat) (ops : List Op) :
    ReleasedOnce (run (World.init n) ops) :=
  released_once_of_accounted _ (run_accounted ops _ (init_accounted n))

theorem bn_released_exactly_once_witness :
    (run (World.init 5) sample_program).heap.freed = [2, 1, 0]
      ∧ (run (World.init 5) sample_program).heap.next = 3
      ∧ (run (World.init 5) sample_program).caller = []
      ∧ ReleasedOnce (run (World.init 5) sample_program) :=
  ⟨by decide, by decide, by decide, bn_released_exactly_once 5 sample_program⟩

/-! ## rsa_ossl.cpp -/

/-- C9: each of the six RSA entry points of this backend returns NotImplemented for
every input and leaves its output arguments (encrypted value, signature, plaintext
buffer and length, generated key) and the random generator as they were passed in. -/
theorem rsa_not_implemented (rng : rng_t) (key : pgp_rsa_key_t) (secret : Bool)
    (enc : pgp_rsa_encrypted_t) (sig : pgp_rsa_signature_t) (data : List Byte) (len : Nat)
    (hash_alg : Nat) (out : List Byte) (out_len : Nat) (numbits : Nat) :
    rsa_validate_key rng key secret = (RNP_ERROR_NOT_IMPLEMENTED, rng) ∧
    rsa_encrypt_pkcs1 rng enc data len key = (RNP_ERROR_NOT_IMPLEMENTED, rng, enc) ∧
    rsa_verify_pkcs1 sig hash_alg data len key = RNP_ERROR_NOT_IMPLEMENTED ∧
    rsa_sign_pkcs1 rng sig hash_alg data len key = (RNP_ERROR_NOT_IMPLEMENTED, rng, sig) ∧
    rsa_decrypt_pkcs1 rng out out_len enc key = (RNP_ERROR_NOT_IMPLEMENTED, rng, out, out_len) ∧
    rsa_generate rng key numbits = (RNP_ERROR_NOT_IMPLEMENTED, rng, key) :=
  ⟨rfl, rfl, rfl, rfl, rfl, rfl⟩

/-! ## bn.h: moving a wrapper -/

theorem getD_set_self (os : List (Option bn)) (i : Nat) (x : Option bn) (hi : i < os.length) :
    (os.set i x).getD i none = x := by
  simp [List.getD_eq_getElem?_getD, List.getElem?_set_self hi]

theorem getD_append_left (os : List (Option bn)) (o : Option bn) (i : Nat)
    (hi : i < os.length) : (os ++ [o]).getD i none = os.getD i none := by
  simp [List.getD_eq_getElem?_getD, List.getElem?_append_left hi]

theorem getD_append_length (os : List (Option bn)) (o : Option bn) :
    (os ++ [o]).getD os.length none = o := by
  simp [List.getD_eq_getElem?_getD]

theorem obj_lt_length (w : World) (i : Nat) (b : bn) (ho : w.obj i = some b) :
    i < w.objs.length := by
  by_contra hge
  have : w.objs.getD i none = none := by
    simp [List.getD_eq_getElem?_getD, List.getElem?_eq_none (Nat.le_of_not_lt hge)]
  unfold World.obj at ho
  rw [this] at ho
  exact absurd ho (by simp)

/-- C11: move construction and move assignment from a different wrapper give the
destination the owned and the borrowed pointer the source had, and leave the source
with neither (it converts to false); this holds for the two functions and for the
wrappers of a program state; move-assigning a wrapper to itself changes nothing. -/
theorem bn_move_transfers (h : Heap) (this src : bn) (w : World) :
    ((bn.move src).1._bn = src._bn ∧ (bn.move src).1._c_bn = src._c_bn ∧
      (bn.move src).2._bn = none ∧ (bn.move src).2._c_bn = none ∧
      (bn.move src).2.to_bool = false) ∧
    ((bn.move_assign h this src).1._bn = src._bn ∧
      (bn.move_assign h this src).1._c_bn = src._c_bn ∧
      (bn.move_assign h this src).2.1._bn = none ∧
      (bn.move_assign h this src).2.1._c_bn = none ∧
      (bn.move_assign h this src).2.1.to_bool = false) ∧
    (∀ i s, w.obj i = some s →
      (step w (Op.move_ctor i)).obj w.objs.length = some { _bn := s._bn, _c_bn := s._c_bn } ∧
      (step w (Op.move_ctor i)).obj i = some { _bn := none, _c_bn := none }) ∧
    (∀ i j d s, i ≠ j → w.obj i = some d → w.obj j = some s →
      (step w (Op.move_assign i j)).obj i = some { _bn := s._bn, _c_bn := s._c_bn } ∧
      (step w (Op.move_assign i j)).obj j = some { _bn := none, _c_bn := none }) ∧
    (∀ i, step w (Op.move_assign i i) = w) := by
  refine ⟨⟨rfl, rfl, rfl, rfl, rfl⟩, ⟨rfl, rfl, rfl, rfl, rfl⟩, ?_, ?_, ?_⟩
  · intro i s ho
    have hi := obj_lt_length w i s ho
    have e : step w (Op.move_ctor i)
        = { w with objs := w.objs.set i (some (bn.move s).2) ++ [some (bn.move s).1] } := by
      simp only [step, ho]
    rw [e]
    have hlen : (w.objs.set i (some (bn.move s).2)).length = w.objs.length := by simp
    refine ⟨?_, ?_⟩
    · show (w.objs.set i (some (bn.move s).2) ++ [some (bn.move s).1]).getD w.objs.length none = _
      rw [← hlen, getD_append_length]
      rfl
    · show (w.objs.set i (some (bn.move s).2) ++ [some (bn.move s).1]).getD i none = _
      rw [getD_append_left _ _ _ (by rw [hlen]; exact hi), getD_set_self _ _ _ hi]
      rfl
  · intro i j d s hij hd hs
    have hi := obj_lt_length w i d hd
    have hj := obj_lt_length w j s hs
    have e : step w (Op.move_assign i j)
        = { w with heap := (bn.move_assign w.heap d s).2.2,
                   objs := (w.objs.set i (some (bn.move_assign w.heap d s).1)).set j
                     (some (bn.move_assign w.heap d s).2.1) } := by
      simp only [step, hij, if_false, hd, hs]
    rw [e]
    refine ⟨?_, ?_⟩
    · show ((w.objs.set i _).set j _).getD i none = _
      rw [getD_set_ne _ _ _ _ (Ne.symm hij), getD_set_self _ _ _ hi]
      rfl
    · show ((w.objs.set i _).set j _).getD j none = _
      rw [getD_set_self _ _ _ (by simpa using hj)]
      rfl
  · intro i
    simp [step]

theorem bn_move_transfers_witness :
    (step (run (World.init 3) [Op.ctor_mpi (some (mpi_of 4 [7])), Op.ctor_const (some 9)])
        (Op.move_assign 0 1)).objs
      = [some { _bn := none, _c_bn := some 9 }, some { _bn := none, _c_bn := none }]
    ∧ (step (run (World.init 3) [Op.ctor_mpi (some (mpi_of 4 [7])), Op.ctor_const (some 9)])
        (Op.move_assign 0 1)).heap.freed = [0]
    ∧ step (run (World.init 3) [Op.ctor_mpi (some (mpi_of 4 [7]))]) (Op.move_assign 0 0)
      = run (World.init 3) [Op.ctor_mpi (some (mpi_of 4 [7]))] :=
  ⟨by decide, by decide,
    (bn_move_transfers (Heap.empty 0) (bn.new none) (bn.new none)
      (run (World.init 3) [Op.ctor_mpi (some (mpi_of 4 [7]))])).2.2.2.2 0⟩

/-! ## backend_version.cpp -/

theorem mem_concat_map {α β : Type} (f : α → List β) (b : β) :
    ∀ l : List α, b ∈ concat_map f l ↔ ∃ a, a ∈ l ∧ b ∈ f a := by
  intro l
  induction l with
  | nil => simp [concat_map]
  | cons a as ih =>
    simp only [concat_map, List.mem_append, ih, List.mem_cons]
    constructor
    · rintro (h | ⟨a1, h1, h2⟩)
      · exact ⟨a, Or.inl rfl, h⟩
      · exact ⟨a1, Or.inr h1, h2⟩
    · rintro ⟨a1, h1 | h1, h2⟩
      · left; rw [← h1]; exact h2
      · right; exact ⟨a1, h1, h2⟩

theorem star_ends_length (f : List Char → List (List Char))
    (hf : ∀ s t, t ∈ f s → t.length ≤ s.length) :
    ∀ (n : Nat) (s t : List Char), t ∈ star_ends f n s → t.length ≤ s.length := by
  intro n
  induction n with
  | zero =>
    intro s t h
    simp only [star_ends, List.mem_singleton] at h
    rw [h]
  | succ n ih =>
    intro s t h
    simp only [star_ends, List.mem_cons, mem_concat_map, List.mem_filter,
      decide_eq_true_eq] at h
    rcases h with h | ⟨u, ⟨_, hu⟩, ht⟩
    · rw [h]
    · have := ih u t ht
      omega

theorem ends_length_le (r : Regex) : ∀ s t : List Char, t ∈ r.ends s → t.length ≤ s.length := by
  induction r with
  | eps =>
    intro s t h
    simp only [Regex.ends, List.mem_singleton] at h
    rw [h]
  | chr c =>
    intro s t h
    cases s with
    | nil => simp [Regex.ends] at h
    | cons x xs =>
      simp only [Regex.ends] at h
      split_ifs at h
      · simp only [List.mem_singleton] at h
        rw [h]; simp
      · simp at h
  | range lo hi =>
    intro s t h
    cases s with
    | nil => simp [Regex.ends] at h
    | cons x xs =>
      simp only [Regex.ends] at h
      split_ifs at h
      · simp only [List.mem_singleton] at h
        rw [h]; simp
      · simp at h
  | cat a b iha ihb =>
    intro s t h
    simp only [Regex.ends, mem_concat_map] at h
    obtain ⟨u, hu, ht⟩ := h
    have h1 := iha s u hu
    have h2 := ihb u t ht
    omega
  | star a iha =>
    intro s t h
    simp only [Regex.ends] at h
    exact star_ends_length a.ends iha s.length s t h

theorem range_ends_length (lo hi : Char) (s t : List Char)
    (h : t ∈ (Regex.range lo hi).ends s) : t.length < s.length := by
  cases s with
  | nil => simp [Regex.ends] at h
  | cons x xs =>
    simp only [Regex.ends] at h
    split_ifs at h
    · simp only [List.mem_singleton] at h
      rw [h]; simp
    · simp at h

theorem reg_group1_ends_length (s t : List Char) (h : t ∈ reg_group1.ends s) :
    t.length < s.length := by
  unfold reg_group1 at h
  rw [Regex.ends, mem_concat_map] at h
  obtain ⟨u, hu, ht⟩ := h
  have h1 := range_ends_length _ _ s u hu
  have h2 := ends_length_le _ u t ht
  omega

theorem longest_mem : ∀ (l : List (List Char × List Char)) (m : List Char × List Char),
    longest l = some m → m ∈ l := by
  intro l
  induction l with
  | nil => intro m h; simp [longest] at h
  | cons a as ih =>
    intro m h
    simp only [longest] at h
    cases hl : longest as with
    | none =>
      rw [hl] at h
      simp only [Option.some.injEq] at h
      rw [← h]; simp
    | some m1 =>
      rw [hl] at h
      simp only at h
      split_ifs at h
      · simp only [Option.some.injEq] at h
        rw [← h]
        exact List.mem_cons_of_mem _ (ih m1 hl)
      · simp only [Option.some.injEq] at h
        rw [← h]; simp

theorem match_at_fst_ne_nil (s : List Char) (m : List Char × List Char) (h : m ∈ match_at s) :
    m.1 ≠ [] := by
  simp only [match_at, mem_concat_map, List.mem_map] at h
  obtain ⟨rest1, _, rest2, h2, rest3, _, hm⟩ := h
  have hlt := reg_group1_ends_length rest1 rest2 h2
  rw [← hm]
  intro he
  have he1 : List.take (rest1.length - rest2.length) rest1 = [] := he
  have hl : (List.take (rest1.length - rest2.length) rest1).length = 0 := by
    rw [he1]; rfl
  rw [List.length_take] at hl
  omega

theorem regex_search_ne_nil : ∀ (s v : List Char), regex_search s = some v → v ≠ [] := by
  intro s
  induction s with
  | nil =>
    intro v h
    simp only [regex_search, Option.map_eq_some'] at h
    obtain ⟨m, hm, hv⟩ := h
    rw [← hv]
    exact match_at_fst_ne_nil _ m (longest_mem _ m hm)
  | cons c s ih =>
    intro v h
    simp only [regex_search] at h
    cases hl : longest (match_at (c :: s)) with
    | none =>
      rw [hl] at h
      exact ih v h
    | some m =>
      rw [hl] at h
      simp only [Option.some.injEq] at h
      rw [← h]
      exact match_at_fst_ne_nil _ m (longest_mem _ m hl)

/-- C12: at the banner `OpenSSL 3.0.12 24 Oct 2023`, whose second word `3.0.12` is a
dotted numeric core, `backend_version` returns `unknown` with either engine, where
the claim requires `3.0.12`: the pattern admits one digit per component.  At the
banner of the source comment, `OpenSSL 1.1.1l  24 Aug 2021`, it returns `1.1.1l`. -/
theorem backend_version_two_digit_component :
    backend_version false false true "OpenSSL 3.0.12 24 Oct 2023".toList []
        = .ok ("unknown".toList, [])
      ∧ backend_version true false true "OpenSSL 3.0.12 24 Oct 2023".toList []
        = .ok ("unknown".toList, [])
      ∧ backend_version false false true "OpenSSL 1.1.1l  24 Aug 2021".toList []
        = .ok ("1.1.1l".toList, "1.1.1l".toList)
      ∧ backend_version true false true "OpenSSL 1.1.1l  24 Aug 2021".toList []
        = .ok ("1.1.1l".toList, "1.1.1l".toList) := by
  decide

theorem backend_version_nth_fixed (e d c : Bool) (banner r version : List Char)
    (h : backend_version e d c banner version = .ok (r, version)) :
    ∀ n, backend_version_nth e d c banner n version = .ok r := by
  intro n
  induction n with
  | zero => simp [backend_version_nth, h]
  | succ n ih => simp [backend_version_nth, h, ih]

theorem backend_version_cached (e d c : Bool) (banner v : List Char) (hv : v ≠ []) :
    backend_version e d c banner v = .ok (v, v) := by
  simp [backend_version, hv]

theorem backend_version_nth_of_first (e d c : Bool) (banner r version1 : List Char)
    (h1 : backend_version e d c banner [] = .ok (r, version1))
    (h2 : backend_version e d c banner version1 = .ok (r, version1)) :
    ∀ n, backend_version_nth e d c banner n [] = .ok r := by
  intro n
  cases n with
  | zero => simp [backend_version_nth, h1]
  | succ n =>
    simp only [backend_version_nth, h1]
    exact backend_version_nth_fixed e d c banner r version1 h2 n

theorem backend_version_long_token_cex :
    backend_version false false true
        "OpenSSL 1.1.1abcdefghijklmnopqrstuvwxyza 1 Jan 2021".toList []
      = .error Fault.assert_failed
    ∧ backend_version true false true
        "OpenSSL 1.1.1abcdefghijklmnopqrstuvwxyza 1 Jan 2021".toList []
      = .error Fault.assert_failed
    ∧ regex_search "OpenSSL 1.1.1abcdefghijklmnopqrstuvwxyza 1 Jan 2021".toList
      = some "1.1.1abcdefghijklmnopqrstuvwxyza".toList
    ∧ "1.1.1abcdefghijklmnopqrstuvwxyza".toList.length = 32 := by
  decide

/-- C13 (as amended): for a fixed provider banner in which the version text found by
the pattern, if any, is shorter than the 32 characters of the static buffer,
`backend_version` never fails: every call of a process, the first one and each later
one, returns one and the same non-empty string, which is `unknown` when the banner
does not match the pattern (or the pattern cannot be compiled) and the version text
otherwise. -/
theorem backend_version_stable (RNP_USE_STD_REGEX NDEBUG regcomp_served : Bool)
    (banner : List Char)
    (hshort : ∀ v, regex_search banner = some v → v.length < 32) :
    ∃ r, r ≠ [] ∧
      (∀ n, backend_version_nth RNP_USE_STD_REGEX NDEBUG regcomp_served banner n [] = .ok r) ∧
      (regex_search banner = none → r = "unknown".toList) ∧
      (∀ v, regex_search banner = some v → (RNP_USE_STD_REGEX = true ∨ regcomp_served = true) →
        r = v) := by
  have hunk : "unknown".toList ≠ [] := by decide
  cases hs : regex_search banner with
  | none =>
    refine ⟨"unknown".toList, hunk, ?_, fun _ => rfl, fun v hv => absurd hv (by simp)⟩
    apply backend_version_nth_fixed
    cases RNP_USE_STD_REGEX <;> cases regcomp_served <;> simp [backend_version, hs]
  | some v =>
    have hlen := hshort v hs
    have hne := regex_search_ne_nil banner v hs
    have hn1 : ¬ 32 < v.length + 1 := by omega
    have htake : List.take 31 v = v := List.take_of_length_le (by omega)
    by_cases hcfg : RNP_USE_STD_REGEX = false ∧ regcomp_served = false
    · refine ⟨"unknown".toList, hunk, ?_, fun h => absurd h (by simp), ?_⟩
      · apply backend_version_nth_fixed
        simp [backend_version, hcfg.1, hcfg.2]
      · intro v1 _ hor
        rcases hor with h | h
        · rw [hcfg.1] at h; exact absurd h (by decide)
        · rw [hcfg.2] at h; exact absurd h (by decide)
    · refine ⟨v, hne, ?_, fun h => absurd h (by simp), ?_⟩
      · apply backend_version_nth_of_first _ _ _ _ _ v
        · cases RNP_USE_STD_REGEX <;> cases regcomp_served <;>
            simp_all [backend_version]
        · exact backend_version_cached _ _ _ _ v hne
      · intro v1 hv1 _
        exact (Option.some.inj hv1)

theorem backend_version_stable_witness :
    ∃ r, r ≠ [] ∧
      (∀ n, backend_version_nth false false true "OpenSSL 1.1.1l  24 Aug 2021".toList n []
        = .ok r) ∧
      r = "1.1.1l".toList := by
  have hs : regex_search "OpenSSL 1.1.1l  24 Aug 2021".toList = some "1.1.1l".toList := by
    decide
  obtain ⟨r, h1, h2, _, h4⟩ := backend_version_stable false false true
    "OpenSSL 1.1.1l  24 Aug 2021".toList
    (by intro v hv; rw [hs] at hv; rw [← Option.some.inj hv]; decide)
  exact ⟨r, h1, h2, h4 _ hs (Or.inr rfl)⟩

/-! ## Signing, then verifying -/

theorem der_length_mono (n1 n : Nat) (l : List Byte) (hle : n1 ≤ n)
    (h : der_length n = some l) :
    ∃ l1, der_length n1 = some l1 ∧ l1.length ≤ l.length := by
  unfold der_length at h ⊢
  split at h
  · exact absurd h (by simp)
  · rename_i h1
    have g1 : ¬ 0xffff < n1 := by omega
    rw [if_neg g1]
    split at h
    · have hl : l = _ := (Option.some.inj h).symm
      subst hl
      split
      · exact ⟨_, rfl, by simp⟩
      · split
        · exact ⟨_, rfl, by simp⟩
        · exact ⟨_, rfl, by simp⟩
    · rename_i h2
      have g2 : ¬ 0xff < n1 := by omega
      rw [if_neg g2]
      split at h
      · have hl : l = _ := (Option.some.inj h).symm
        subst hl
        split
        · exact ⟨_, rfl, by simp⟩
        · exact ⟨_, rfl, by simp⟩
      · rename_i h3
        have g3 : ¬ 0x7f < n1 := by omega
        rw [if_neg g3]
        have hl : l = _ := (Option.some.inj h).symm
        subst hl
        exact ⟨_, rfl, by simp⟩

theorem get_sub_packet_some (pkt cont rest : List Byte) (n : Nat)
    (h : get_sub_packet pkt n = some (cont, rest)) :
    pkt = cont ++ rest ∧ cont.length = n := by
  unfold get_sub_packet at h
  split_ifs at h with hn
  simp only [Option.some.injEq, Prod.mk.injEq] at h
  obtain ⟨h1, h2⟩ := h
  subst h1 h2
  exact ⟨(List.take_append_drop n pkt).symm, by simp [hn]⟩

theorem der_decode_length_some (pkt cont rest : List Byte)
    (h : der_decode_length pkt = some (cont, rest)) :
    ∃ l l1, pkt = l ++ (cont ++ rest) ∧ der_length cont.length = some l1 ∧
      l1.length ≤ l.length := by
  cases pkt with
  | nil => simp [der_decode_length] at h
  | cons b rest0 =>
    simp only [der_decode_length] at h
    split_ifs at h with h1 h2 h3
    · obtain ⟨e, hn⟩ := get_sub_packet_some _ _ _ _ h
      refine ⟨[b], [Byte.ofNat cont.length], by simp [e], ?_, by simp⟩
      have hb := b.isLt
      simp only [der_length]
      rw [if_neg (by omega), if_neg (by omega), if_neg (by omega)]
    · cases rest0 with
      | nil => simp at h
      | cons l0 rest1 =>
        simp only at h
        obtain ⟨e, hn⟩ := get_sub_packet_some _ _ _ _ h
        have hb := l0.isLt
        obtain ⟨l1, hl1, hlen⟩ := der_length_isSome cont.length (by omega)
        refine ⟨[b, l0], l1, by simp [e], hl1, ?_⟩
        unfold der_length at hl1
        rw [if_neg (by omega), if_neg (by omega)] at hl1
        split_ifs at hl1
        · rw [← Option.some.inj hl1]; simp
        · rw [← Option.some.inj hl1]; simp
    · cases rest0 with
      | nil => simp at h
      | cons l0 rest1 =>
        cases rest1 with
        | nil => simp at h
        | cons l2 rest2 =>
          simp only at h
          obtain ⟨e, hn⟩ := get_sub_packet_some _ _ _ _ h
          have hb0 := l0.isLt
          have hb2 := l2.isLt
          obtain ⟨l1, hl1, hlen⟩ := der_length_isSome cont.length (by omega)
          exact ⟨[b, l0, l2], l1, by simp [e], hl1, by simpa using hlen⟩

theorem der_integer_content_canonical (cont : List Byte)
    (h : der_integer_content_ok cont = true) :
    der_integer_content (be_value cont) = cont := by
  cases cont with
  | nil => simp [der_integer_content_ok] at h
  | cons b rest =>
    by_cases hb : 0x80 ≤ b.val
    · simp [der_integer_content_ok, hb] at h
    · by_cases hb0 : b = 0
      · subst hb0
        cases rest with
        | nil => decide
        | cons c cs =>
          have hc80 : 0x80 ≤ c.val := by
            simpa [der_integer_content_ok] using h
          have hc : c ≠ 0 := by
            intro e
            subst e
            simp at hc80
          have hv : be_value (0 :: c :: cs) = be_value (c :: cs) := by
            rw [be_value_cons]; simp
          have hbytes : BN_bytes (be_value (c :: cs)) = c :: cs :=
            BN_bytes_be_value_of_head _ (fun x hx => by
              simp only [List.head?_cons, Option.some.injEq] at hx
              rw [← hx]; exact hc)
          unfold der_integer_content
          rw [hv, hbytes]
          simp [hc80]
      · have hbytes : BN_bytes (be_value (b :: rest)) = b :: rest :=
          BN_bytes_be_value_of_head _ (fun x hx => by
            simp only [List.head?_cons, Option.some.injEq] at hx
            rw [← hx]; exact hb0)
        unfold der_integer_content
        rw [hbytes]
        simp [hb]

theorem der_decode_integer_some (pkt rest : List Byte) (n : BIGNUM)
    (h : der_decode_integer pkt = some (n, rest)) :
    ∃ enc, der_integer n = some enc ∧ enc.length + rest.length ≤ pkt.length := by
  cases pkt with
  | nil => simp [der_decode_integer] at h
  | cons tag rest0 =>
    simp only [der_decode_integer] at h
    split_ifs at h with ht
    cases hd : der_decode_length rest0 with
    | none => rw [hd] at h; simp at h
    | some cr =>
      obtain ⟨cont, rest1⟩ := cr
      rw [hd] at h
      simp only at h
      split_ifs at h with hok
      simp only [Option.some.injEq, Prod.mk.injEq] at h
      obtain ⟨hn, hr⟩ := h
      subst hn hr
      obtain ⟨l, l1, e, hl1, hlen⟩ := der_decode_length_some _ _ _ hd
      have hc := der_integer_content_canonical cont hok
      refine ⟨0x02 :: (l1 ++ cont), ?_, ?_⟩
      · unfold der_integer
        rw [hc, hl1]
      · rw [e]
        simp only [List.length_cons, List.length_append]
        omega

theorem der_encode_sig_length_ge (r s : BIGNUM) (enc : List Byte)
    (h : der_encode_sig r s = some enc) :
    BN_num_bytes r + BN_num_bytes s + 6 ≤ enc.length := by
  have key : ∀ (n : BIGNUM) (e : List Byte), der_integer n = some e →
      BN_num_bytes n + 2 ≤ e.length := by
    intro n e he
    unfold der_integer at he
    split at he
    · exact absurd he (by simp)
    · rename_i l1 hl1
      have : e = 0x02 :: (l1 ++ der_integer_content n) := by simpa using he.symm
      subst this
      have := der_length_length _ l1 hl1
      have := der_integer_content_length n
      simp only [List.length_cons, List.length_append]; omega
  unfold der_encode_sig at h
  split at h
  · rename_i ri si hr hs
    split at h
    · exact absurd h (by simp)
    · rename_i l hl
      have he : enc = 0x30 :: (l ++ (ri ++ si)) := by simpa using h.symm
      subst he
      have h1 := der_length_length _ l hl
      have h2 := key r ri hr
      have h3 := key s si hs
      simp only [List.length_cons, List.length_append]; omega
  · exact absurd h (by simp)

theorem der_decode_sig_some (blob : List Byte) (r s : BIGNUM)
    (h : der_decode_sig blob = some (r, s)) :
    ∃ enc, der_encode_sig r s = some enc ∧ enc.length ≤ blob.length := by
  cases blob with
  | nil => simp [der_decode_sig] at h
  | cons tag rest0 =>
    simp only [der_decode_sig] at h
    split_ifs at h with ht
    cases hd : der_decode_length rest0 with
    | none => rw [hd] at h; simp at h
    | some cr =>
      obtain ⟨cont, trailing⟩ := cr
      rw [hd] at h
      simp only at h
      cases h1 : der_decode_integer cont with
      | none => rw [h1] at h; simp at h
      | some rc =>
        obtain ⟨r1, cont1⟩ := rc
        rw [h1] at h
        simp only at h
        cases h2 : der_decode_integer cont1 with
        | none => rw [h2] at h; simp at h
        | some sc =>
          obtain ⟨s1, cont2⟩ := sc
          rw [h2] at h
          simp only at h
          split_ifs at h with hnil
          simp only [Option.some.injEq, Prod.mk.injEq] at h
          obtain ⟨hr, hs⟩ := h
          subst hr hs hnil
          obtain ⟨l, l1, e, hl1, hlen⟩ := der_decode_length_some _ _ _ hd
          obtain ⟨ri, hri, hrlen⟩ := der_decode_integer_some _ _ _ h1
          obtain ⟨si, hsi, hslen⟩ := der_decode_integer_some _ _ _ h2
          simp only [List.length_nil, Nat.add_zero] at hslen
          obtain ⟨l2, hl2, hlen2⟩ := der_length_mono (ri.length + si.length) cont.length l1
            (by omega) hl1
          refine ⟨0x30 :: (l2 ++ (ri ++ si)), ?_, ?_⟩
          · simp [der_encode_sig, hri, hsi, hl2]
          · rw [e]
            simp only [List.length_cons, List.length_append]
            omega

theorem ecdsa_sign_success (P : Provider) (PGP_MPINT_SIZE : Nat) (rng : RNG)
    (sig0 : ec.Signature) (hash_alg : Nat) (hash : List Byte) (key : ec.Key)
    (h : (ecdsa_sign P PGP_MPINT_SIZE rng sig0 hash_alg hash key).ret = RNP_SUCCESS) :
    ∃ skey sctx r s,
      P.load_key key.p (some key.x) key.curve = some skey ∧
      P.EVP_PKEY_CTX_new skey = some sctx ∧
      (P.EVP_PKEY_sign sctx hash).2.length ≤ PGP_MPINT_SIZE ∧
      der_decode_sig (P.EVP_PKEY_sign sctx hash).2 = some (r, s) ∧
      (ecdsa_sign P PGP_MPINT_SIZE rng sig0 hash_alg hash key).sig
        = { r := (bn2mpi r sig0.r).2,
            s := (bn2mpi s { mpi := overwrite sig0.s.mpi (P.EVP_PKEY_sign sctx hash).2,
                             len := (P.EVP_PKEY_sign sctx hash).2.length }).2 } := by
  unfold ecdsa_sign at h ⊢
  by_cases hx : key.x.bytes = 0
  · simp [hx] at h
  · simp only [hx, if_false] at h ⊢
    cases hk : P.load_key key.p (some key.x) key.curve with
    | none => rw [hk] at h; simp at h
    | some skey =>
      rw [hk] at h
      dsimp only at h ⊢
      cases hc : P.EVP_PKEY_CTX_new skey with
      | none => rw [hc] at h; simp at h
      | some sctx =>
        rw [hc] at h
        dsimp only at h ⊢
        by_cases hi : P.EVP_PKEY_sign_init sctx ≤ 0
        · simp [hi] at h
        · simp only [hi, if_false] at h ⊢
          unfold EVP_PKEY_sign at h ⊢
          by_cases hr : (P.EVP_PKEY_sign sctx hash).1 ≤ 0
          · simp [hr] at h
          · simp only [hr, if_false] at h ⊢
            by_cases hl : PGP_MPINT_SIZE < (P.EVP_PKEY_sign sctx hash).2.length
            · simp [hl] at h
            · simp only [hl, if_false] at h ⊢
              have ht : d2i_ECDSA_SIG P (overwrite sig0.s.mpi (P.EVP_PKEY_sign sctx hash).2)
                  (P.EVP_PKEY_sign sctx hash).2.length
                  = if P.alloc 3 = true then der_decode_sig (P.EVP_PKEY_sign sctx hash).2
                    else none := by
                unfold d2i_ECDSA_SIG
                rw [take_overwrite]
              unfold ecdsa_decode_sig at h ⊢
              simp only [ht] at h ⊢
              by_cases ha : P.alloc 3 = true
              · simp only [ha, if_true] at h ⊢
                cases hd : der_decode_sig (P.EVP_PKEY_sign sctx hash).2 with
                | none => rw [hd] at h; simp [hr] at h
                | some rs =>
                  obtain ⟨r, s⟩ := rs
                  refine ⟨skey, sctx, r, s, rfl, hc, by omega, hd, ?_⟩
                  simp [hr]
              · simp [ha, hr] at h

theorem overwrite_length (dst src : List Byte) (h : src.length ≤ dst.length) :
    (overwrite dst src).length = dst.length := by
  simp only [overwrite, List.length_append, List.length_drop]
  omega

theorem ecdsa_verify_of_encoding (P : Provider) (PGP_MPINT_SIZE : Nat) (sig : ec.Signature)
    (hash_alg : Nat) (hash : List Byte) (key : ec.Key) (vkey : EVP_PKEY) (vctx : EVP_PKEY_CTX)
    (enc : List Byte)
    (hvkey : P.load_key key.p none key.curve = some vkey)
    (hvctx : P.EVP_PKEY_CTX_new vkey = some vctx)
    (hvinit : 0 < P.EVP_PKEY_verify_init vctx)
    (halloc : ∀ n, P.alloc n = true)
    (he : der_encode_sig (be_value sig.r.data) (be_value sig.s.data) = some enc)
    (hfit : enc.length ≤ PGP_MPINT_SIZE) :
    (0 < P.EVP_PKEY_verify vctx enc hash →
      ∃ calls, ecdsa_verify P PGP_MPINT_SIZE sig hash_alg hash key = .ok (RNP_SUCCESS, calls)) ∧
    (P.EVP_PKEY_verify vctx enc hash ≤ 0 →
      ∃ calls, ecdsa_verify P PGP_MPINT_SIZE sig hash_alg hash key
        = .ok (RNP_ERROR_SIGNATURE_INVALID, calls)) := by
  have hi1 : ¬ P.EVP_PKEY_verify_init vctx ≤ 0 := by omega
  have htake : List.take enc.length
      (enc ++ List.drop enc.length (List.replicate PGP_MPINT_SIZE (0 : Byte))) = enc := by
    simp
  refine ⟨?_, ?_⟩
  · intro hv
    simp [ecdsa_verify, hvkey, hvctx, hi1, ecdsa_encode_sig_eq, halloc, he, hfit, hv]
  · intro hv
    have hv1 : ¬ 0 < P.EVP_PKEY_verify vctx enc hash := by omega
    simp [ecdsa_verify, hvkey, hvctx, hi1, ecdsa_encode_sig_eq, halloc, he, hfit, hv1]

/-- C14: let `ecdsa_sign` succeed for a digest and a key, with signature `sig`, and
let the public part of the key load and the verification context, its
initialisation and the allocations be served.  Then the DER re-encoding of `sig` by
`ecdsa_encode_sig` exists and fits the buffer of `PGP_MPINT_SIZE` bytes; it is, byte
for byte, the blob the sign primitive produced whenever that blob is the DER
encoding of a pair; and `ecdsa_verify` of `sig` for the same digest and key returns
success if the verify primitive accepts that re-encoding, SignatureInvalid if it
does not.  In particular, over a provider whose sign primitive produces the DER
encoding of a pair and whose verify primitive accepts that blob, `ecdsa_verify` of
the signature `ecdsa_sign` produced returns success. -/
theorem ecdsa_sign_then_verify (P : Provider) (PGP_MPINT_SIZE : Nat) (rng : RNG)
    (sig0 : ec.Signature) (hash_alg : Nat) (hash : List Byte) (key : ec.Key)
    (vkey : EVP_PKEY) (vctx : EVP_PKEY_CTX)
    (hr0 : sig0.r.mpi.length = PGP_MPINT_SIZE) (hs0 : sig0.s.mpi.length = PGP_MPINT_SIZE)
    (hvkey : P.load_key key.p none key.curve = some vkey)
    (hvctx : P.EVP_PKEY_CTX_new vkey = some vctx)
    (hvinit : 0 < P.EVP_PKEY_verify_init vctx)
    (halloc : ∀ n, P.alloc n = true)
    (hsign : (ecdsa_sign P PGP_MPINT_SIZE rng sig0 hash_alg hash key).ret = RNP_SUCCESS) :
    ∃ skey sctx enc,
      P.load_key key.p (some key.x) key.curve = some skey ∧
      P.EVP_PKEY_CTX_new skey = some sctx ∧
      der_encode_sig
        (be_value (ecdsa_sign P PGP_MPINT_SIZE rng sig0 hash_alg hash key).sig.r.data)
        (be_value (ecdsa_sign P PGP_MPINT_SIZE rng sig0 hash_alg hash key).sig.s.data)
        = some enc ∧
      enc.length ≤ PGP_MPINT_SIZE ∧
      ((∃ r s, der_encode_sig r s = some (P.EVP_PKEY_sign sctx hash).2) →
        enc = (P.EVP_PKEY_sign sctx hash).2) ∧
      (0 < P.EVP_PKEY_verify vctx enc hash →
        ∃ calls, ecdsa_verify P PGP_MPINT_SIZE
          (ecdsa_sign P PGP_MPINT_SIZE rng sig0 hash_alg hash key).sig hash_alg hash key
          = .ok (RNP_SUCCESS, calls)) ∧
      (P.EVP_PKEY_verify vctx enc hash ≤ 0 →
        ∃ calls, ecdsa_verify P PGP_MPINT_SIZE
          (ecdsa_sign P PGP_MPINT_SIZE rng sig0 hash_alg hash key).sig hash_alg hash key
          = .ok (RNP_ERROR_SIGNATURE_INVALID, calls)) ∧
      ((∃ r s, der_encode_sig r s = some (P.EVP_PKEY_sign sctx hash).2) →
        0 < P.EVP_PKEY_verify vctx (P.EVP_PKEY_sign sctx hash).2 hash →
        ∃ calls, ecdsa_verify P PGP_MPINT_SIZE
          (ecdsa_sign P PGP_MPINT_SIZE rng sig0 hash_alg hash key).sig hash_alg hash key
          = .ok (RNP_SUCCESS, calls)) := by
  obtain ⟨skey, sctx, r, s, hk, hc, hlen, hdec, hsig⟩ :=
    ecdsa_sign_success P PGP_MPINT_SIZE rng sig0 hash_alg hash key hsign
  obtain ⟨enc, he, henc⟩ := der_decode_sig_some _ r s hdec
  have hge := der_encode_sig_length_ge r s enc he
  have hr1 := bn2mpi_fits_data r sig0.r (by omega)
  have hdst : (overwrite sig0.s.mpi (P.EVP_PKEY_sign sctx hash).2).length = PGP_MPINT_SIZE := by
    rw [overwrite_length _ _ (by omega), hs0]
  have hs1 := bn2mpi_fits_data s
    { mpi := overwrite sig0.s.mpi (P.EVP_PKEY_sign sctx hash).2,
      len := (P.EVP_PKEY_sign sctx hash).2.length }
    (by show BN_num_bytes s ≤ (overwrite sig0.s.mpi (P.EVP_PKEY_sign sctx hash).2).length
        rw [hdst]; omega)
  have he1 : der_encode_sig
      (be_value (ecdsa_sign P PGP_MPINT_SIZE rng sig0 hash_alg hash key).sig.r.data)
      (be_value (ecdsa_sign P PGP_MPINT_SIZE rng sig0 hash_alg hash key).sig.s.data)
      = some enc := by
    rw [hsig]
    show der_encode_sig (be_value (bn2mpi r sig0.r).2.data) (be_value (bn2mpi s _).2.data) = _
    rw [hr1.1, hs1.1, be_value_BN_bytes, be_value_BN_bytes]
    exact he
  have hv := ecdsa_verify_of_encoding P PGP_MPINT_SIZE
    (ecdsa_sign P PGP_MPINT_SIZE rng sig0 hash_alg hash key).sig hash_alg hash key vkey vctx enc
    hvkey hvctx hvinit halloc he1 (by omega)
  have hblob : (∃ r s, der_encode_sig r s = some (P.EVP_PKEY_sign sctx hash).2) →
      enc = (P.EVP_PKEY_sign sctx hash).2 := by
    rintro ⟨r1, s1, hb⟩
    have hd1 := der_decode_sig_encode r1 s1 _ hb []
    rw [List.append_nil, hdec] at hd1
    have hrs : (r, s) = (r1, s1) := Option.some.inj hd1
    have h1 : r = r1 := congrArg Prod.fst hrs
    have h2 : s = s1 := congrArg Prod.snd hrs
    subst h1 h2
    rw [he] at hb
    exact Option.some.inj hb
  refine ⟨skey, sctx, enc, hk, hc, he1, by omega, hblob, hv.1, hv.2, ?_⟩
  intro hder hacc
  rw [← hblob hder] at hacc
  exact hv.1 hacc

theorem ecdsa_sign_then_verify_witness :
    (ecdsa_sign sample_provider 16 { draws := 0 } (sample_sig 16) 8 [1, 2, 3]
        (sample_key 16)).ret = RNP_SUCCESS
    ∧ ∃ calls, ecdsa_verify sample_provider 16
        (ecdsa_sign sample_provider 16 { draws := 0 } (sample_sig 16) 8 [1, 2, 3]
          (sample_key 16)).sig 8 [1, 2, 3] (sample_key 16) = .ok (RNP_SUCCESS, calls) := by
  have hsign : (ecdsa_sign sample_provider 16 { draws := 0 } (sample_sig 16) 8 [1, 2, 3]
      (sample_key 16)).ret = RNP_SUCCESS := by decide
  refine ⟨hsign, ?_⟩
  obtain ⟨skey, sctx, enc, hk, hc, _, _, _, _, _, hok⟩ := ecdsa_sign_then_verify sample_provider 16
    { draws := 0 } (sample_sig 16) 8 [1, 2, 3] (sample_key 16) 1 2 (by decide) (by decide)
    rfl rfl (by decide) (fun _ => rfl) hsign
  have hone : der_encode_sig 1 1 = some der_one_one := by decide
  have hacc : (0 : Int) < sample_provider.EVP_PKEY_verify 2 der_one_one [1, 2, 3] := by decide
  exact hok ⟨1, 1, hone⟩ hacc

/-! ## ecdsa_decode_sig within ecdsa_sign -/

end Rnp
